import Mathlib

/-!
# Verification of the Gproxy-Node request/response pipeline

This file shallowly embeds the core functions of the Gproxy-Node reverse
proxy (URL codec and SSRF validator, content rewrite engine, cookie
translator, retry/connection manager, handler pipeline) as executable Lean
definitions, and proves or refutes the specification claims about them.

Strings are modelled as `List Char` (sequences of Unicode scalar values),
bytes as `Nat` below 256.  JavaScript runtime primitives that the source
relies on (`encodeURIComponent`, `decodeURIComponent`, `Buffer` UTF-8 and
base64 codecs, WHATWG `URL`, `net.isIP`, the used fragment of `RegExp`,
and the used fragment of the `tough-cookie` library) are modelled from
their documented semantics; each model carries a comment naming the
primitive it embeds.
-/

namespace Gproxy

/-- ASCII code of a character. -/
def code (c : Char) : Nat := c.toNat

/-- Is `c` an ASCII decimal digit? -/
def isDigitCh (c : Char) : Bool := 48 ≤ code c && code c ≤ 57

/-- Is `c` an uppercase hex digit (0-9, A-F)?  This is exactly the
character class `[0-9A-F]` used by the `%([0-9A-F]{2})` regex in
`safeBase64Encode`. -/
def isHexUpper (c : Char) : Bool :=
  isDigitCh c || (65 ≤ code c && code c ≤ 70)

/-- Is `c` a hex digit of either case (class `[0-9a-fA-F]`)? -/
def isHexAny (c : Char) : Bool :=
  isDigitCh c || (65 ≤ code c && code c ≤ 70) || (97 ≤ code c && code c ≤ 102)

/-- Numeric value of a hex digit (either case). -/
def hexVal (c : Char) : Nat :=
  if isDigitCh c then code c - 48
  else if 65 ≤ code c && code c ≤ 70 then code c - 55
  else if 97 ≤ code c && code c ≤ 102 then code c - 87
  else 0

/-- Uppercase hex digit for a value below 16. -/
def hexDigitUpper (n : Nat) : Char :=
  if n < 10 then Char.ofNat (48 + n) else Char.ofNat (55 + n)

/-- Two-digit uppercase hex rendering of a byte, as emitted by
JavaScript `encodeURIComponent`. -/
def hexByte (b : Nat) : List Char :=
  [hexDigitUpper (b / 16), hexDigitUpper (b % 16)]

/-- UTF-8 encoding of one Unicode scalar value (the byte sequence
`Buffer.from(string, 'utf8')` produces for that character). -/
def utf8Encode (n : Nat) : List Nat :=
  if n < 0x80 then [n]
  else if n < 0x800 then [0xC0 + n / 64, 0x80 + n % 64]
  else if n < 0x10000 then [0xE0 + n / 4096, 0x80 + n / 64 % 64, 0x80 + n % 64]
  else [0xF0 + n / 262144, 0x80 + n / 4096 % 64, 0x80 + n / 64 % 64, 0x80 + n % 64]

/-- `Buffer.from(s)` with the default `'utf8'` encoding: concatenation of
the UTF-8 bytes of every character. -/
def bufferFromUtf8 (s : List Char) : List Nat :=
  s.flatMap (fun c => utf8Encode (code c))

/-- Is `b` a UTF-8 continuation byte (`0x80..0xBF`)? -/
def isCont (b : Nat) : Bool := 0x80 ≤ b && b ≤ 0xBF

/-- Fuel-driven body of the WHATWG UTF-8 decoder with U+FFFD
replacement, the semantics of `buffer.toString('utf8')` in Node:
well-formed sequences decode to their scalar value, ill-formed bytes
become U+FFFD (maximal-subpart policy).  Each step consumes at least one
byte, so fuel equal to the byte count always suffices. -/
def utf8DecodeReplF : Nat → List Nat → List Char
  | _, [] => []
  | 0, _ => []
  | fuel + 1, b :: rest =>
    if b < 0x80 then Char.ofNat b :: utf8DecodeReplF fuel rest
    else if b < 0xC2 then Char.ofNat 0xFFFD :: utf8DecodeReplF fuel rest
    else if b < 0xE0 then
      match rest with
      | b2 :: rest2 =>
        if isCont b2 then
          Char.ofNat ((b - 0xC0) * 64 + (b2 - 0x80)) :: utf8DecodeReplF fuel rest2
        else Char.ofNat 0xFFFD :: utf8DecodeReplF fuel rest
      | [] => [Char.ofNat 0xFFFD]
    else if b < 0xF0 then
      match rest with
      | b2 :: rest2 =>
        let lo2 := if b = 0xE0 then 0xA0 else 0x80
        let hi2 := if b = 0xED then 0x9F else 0xBF
        if lo2 ≤ b2 && b2 ≤ hi2 then
          match rest2 with
          | b3 :: rest3 =>
            if isCont b3 then
              Char.ofNat ((b - 0xE0) * 4096 + (b2 - 0x80) * 64 + (b3 - 0x80)) ::
                utf8DecodeReplF fuel rest3
            else Char.ofNat 0xFFFD :: utf8DecodeReplF fuel rest2
          | [] => [Char.ofNat 0xFFFD]
        else Char.ofNat 0xFFFD :: utf8DecodeReplF fuel rest
      | [] => [Char.ofNat 0xFFFD]
    else if b < 0xF5 then
      match rest with
      | b2 :: rest2 =>
        let lo2 := if b = 0xF0 then 0x90 else 0x80
        let hi2 := if b = 0xF4 then 0x8F else 0xBF
        if lo2 ≤ b2 && b2 ≤ hi2 then
          match rest2 with
          | b3 :: rest3 =>
            if isCont b3 then
              match rest3 with
              | b4 :: rest4 =>
                if isCont b4 then
                  Char.ofNat ((b - 0xF0) * 262144 + (b2 - 0x80) * 4096 +
                    (b3 - 0x80) * 64 + (b4 - 0x80)) :: utf8DecodeReplF fuel rest4
                else Char.ofNat 0xFFFD :: utf8DecodeReplF fuel rest3
              | [] => [Char.ofNat 0xFFFD]
            else Char.ofNat 0xFFFD :: utf8DecodeReplF fuel rest2
          | [] => [Char.ofNat 0xFFFD]
        else Char.ofNat 0xFFFD :: utf8DecodeReplF fuel rest
      | [] => [Char.ofNat 0xFFFD]
    else Char.ofNat 0xFFFD :: utf8DecodeReplF fuel rest

/-- `buffer.toString('utf8')`: the UTF-8 decoder run with enough fuel. -/
def utf8DecodeRepl (bs : List Nat) : List Char :=
  utf8DecodeReplF bs.length bs

/-- The characters `encodeURIComponent` leaves unescaped:
`A-Z a-z 0-9 - _ . ! ~ * ' ( )` (ECMA-262 `uriUnescaped`). -/
def isUriUnescaped (c : Char) : Bool :=
  (65 ≤ code c && code c ≤ 90) || (97 ≤ code c && code c ≤ 122) ||
  isDigitCh c || code c = 45 || code c = 95 || code c = 46 ||
  code c = 33 || code c = 126 || code c = 42 || code c = 39 ||
  code c = 40 || code c = 41

/-- JavaScript `encodeURIComponent`: unescaped characters pass through,
every other character is replaced by the uppercase `%XX` escapes of its
UTF-8 bytes. -/
def encodeURIComponentJs (s : List Char) : List Char :=
  s.flatMap (fun c =>
    if isUriUnescaped c then [c]
    else (utf8Encode (code c)).flatMap (fun b => '%' :: hexByte b))

/-- The `.replace(/%([0-9A-F]{2})/g, byteChar)` step of
`safeBase64Encode` (post-handlers.js lines 179-182): each `%XX` escape
with uppercase hex digits is replaced by the character with code `0xXX`
(`String.fromCharCode('0x' + p1)`); scanning is left-to-right and
non-overlapping, all other characters pass through. -/
def percentToBytesF : Nat → List Char → List Char
  | _, [] => []
  | 0, s => s
  | fuel + 1, c :: rest =>
    if c = '%' then
      match rest with
      | h1 :: h2 :: rest2 =>
        if isHexUpper h1 && isHexUpper h2 then
          Char.ofNat (hexVal h1 * 16 + hexVal h2) :: percentToBytesF fuel rest2
        else c :: percentToBytesF fuel rest
      | _ => c :: percentToBytesF fuel rest
    else c :: percentToBytesF fuel rest

/-- The `%XX`-collapsing replace, with enough fuel. -/
def percentToBytes (s : List Char) : List Char := percentToBytesF s.length s

/-- Standard base64 alphabet character for a 6-bit value. -/
def b64Char (v : Nat) : Char :=
  if v < 26 then Char.ofNat (65 + v)
  else if v < 52 then Char.ofNat (97 + (v - 26))
  else if v < 62 then Char.ofNat (48 + (v - 52))
  else if v = 62 then '+'
  else '/'

/-- 6-bit value of a base64 alphabet character, accepting both the
standard and the URL-safe alphabet exactly as Node's base64 decoder
does; `none` for every other character. -/
def b64Val (c : Char) : Option Nat :=
  if 65 ≤ code c && code c ≤ 90 then some (code c - 65)
  else if 97 ≤ code c && code c ≤ 122 then some (code c - 97 + 26)
  else if isDigitCh c then some (code c - 48 + 52)
  else if c = '+' || c = '-' then some 62
  else if c = '/' || c = '_' then some 63
  else none

/-- Bytes to 6-bit base64 values, including the partial final group
(`Buffer.toString('base64')` before the alphabet map and padding). -/
def bytesToVals : List Nat → List Nat
  | [] => []
  | [b1] => [b1 / 4, b1 % 4 * 16]
  | [b1, b2] => [b1 / 4, b1 % 4 * 16 + b2 / 16, b2 % 16 * 4]
  | b1 :: b2 :: b3 :: rest =>
    b1 / 4 :: (b1 % 4 * 16 + b2 / 16) :: (b2 % 16 * 4 + b3 / 64) :: b3 % 64 ::
      bytesToVals rest

/-- Base64 padding for a byte count: `==` after one trailing byte,
`=` after two, nothing otherwise. -/
def b64Pad (n : Nat) : List Char :=
  if n % 3 = 1 then ['=', '=']
  else if n % 3 = 2 then ['=']
  else []

/-- `buffer.toString('base64')`: standard base64 with `=` padding. -/
def base64Encode (bs : List Nat) : List Char :=
  (bytesToVals bs).map b64Char ++ b64Pad bs.length

/-- Collect the 6-bit values of a base64 string the way Node's decoder
does: invalid characters are skipped, `=` terminates decoding. -/
def b64Collect : List Char → List Nat
  | [] => []
  | c :: rest =>
    if c = '=' then []
    else
      match b64Val c with
      | some v => v :: b64Collect rest
      | none => b64Collect rest

/-- 6-bit values back to bytes: full groups of four give three bytes, a
trailing group of three gives two, of two gives one, a single leftover
value is dropped.  This is Node's (forgiving) base64 decode loop. -/
def valsToBytes : List Nat → List Nat
  | v1 :: v2 :: v3 :: v4 :: rest =>
    (v1 % 64 * 4 + v2 / 16) :: (v2 % 16 * 16 + v3 / 4) :: (v3 % 4 * 64 + v4 % 64) ::
      valsToBytes rest
  | [v1, v2, v3] => [v1 % 64 * 4 + v2 / 16, v2 % 16 * 16 + v3 / 4]
  | [v1, v2] => [v1 % 64 * 4 + v2 / 16]
  | _ => []

/-- `Buffer.from(s, 'base64')`: Node's lenient base64 decoder.  It never
throws: non-alphabet characters are ignored and `=` stops decoding. -/
def bufferFromBase64 (s : List Char) : List Nat :=
  valsToBytes (b64Collect s)

/-- One decoded escape run for `decodeURIComponent`: starting at a `%`,
read the escape's byte; if it is a UTF-8 lead byte, the continuation
bytes must also be written as `%XX` escapes and form a valid (shortest,
non-surrogate, in-range) encoding, otherwise the whole call throws
`URIError` (modelled as `none`).  Returns the scalar value and the rest
of the input. -/
def decodeEscaped (s : List Char) : Option (Nat × List Char) :=
  match s with
  | '%' :: h1 :: h2 :: rest =>
    if isHexAny h1 && isHexAny h2 then
      let b1 := hexVal h1 * 16 + hexVal h2
      if b1 < 0x80 then some (b1, rest)
      else if b1 < 0xC2 then none
      else if b1 < 0xE0 then
        match rest with
        | '%' :: h3 :: h4 :: rest2 =>
          if isHexAny h3 && isHexAny h4 then
            let b2 := hexVal h3 * 16 + hexVal h4
            if isCont b2 then some ((b1 - 0xC0) * 64 + (b2 - 0x80), rest2) else none
          else none
        | _ => none
      else if b1 < 0xF0 then
        match rest with
        | '%' :: h3 :: h4 :: '%' :: h5 :: h6 :: rest2 =>
          if isHexAny h3 && isHexAny h4 && isHexAny h5 && isHexAny h6 then
            let b2 := hexVal h3 * 16 + hexVal h4
            let b3 := hexVal h5 * 16 + hexVal h6
            let lo2 := if b1 = 0xE0 then 0xA0 else 0x80
            let hi2 := if b1 = 0xED then 0x9F else 0xBF
            if (lo2 ≤ b2 && b2 ≤ hi2) && isCont b3 then
              some ((b1 - 0xE0) * 4096 + (b2 - 0x80) * 64 + (b3 - 0x80), rest2)
            else none
          else none
        | _ => none
      else if b1 < 0xF5 then
        match rest with
        | '%' :: h3 :: h4 :: '%' :: h5 :: h6 :: '%' :: h7 :: h8 :: rest2 =>
          if isHexAny h3 && isHexAny h4 && isHexAny h5 && isHexAny h6 &&
              isHexAny h7 && isHexAny h8 then
            let b2 := hexVal h3 * 16 + hexVal h4
            let b3 := hexVal h5 * 16 + hexVal h6
            let b4 := hexVal h7 * 16 + hexVal h8
            let lo2 := if b1 = 0xF0 then 0x90 else 0x80
            let hi2 := if b1 = 0xF4 then 0x8F else 0xBF
            if (lo2 ≤ b2 && b2 ≤ hi2) && isCont b3 && isCont b4 then
              some ((b1 - 0xF0) * 262144 + (b2 - 0x80) * 4096 +
                (b3 - 0x80) * 64 + (b4 - 0x80), rest2)
            else none
          else none
        | _ => none
      else none
    else none
  | _ => none

/-- Fuel-driven body of JavaScript `decodeURIComponent`: `%XX` escape
runs decode as UTF-8 (throwing `URIError`, modelled as `none`, when
malformed), all other characters pass through unchanged.  A successful
`decodeEscaped` consumes at least three characters, so fuel equal to the
input length always suffices. -/
def decodeURICompF : Nat → List Char → Option (List Char)
  | _, [] => some []
  | 0, _ => none
  | fuel + 1, c :: rest =>
    if c = '%' then
      match decodeEscaped (c :: rest) with
      | some (n, r) =>
        match decodeURICompF fuel r with
        | some out => some (Char.ofNat n :: out)
        | none => none
      | none => none
    else
      match decodeURICompF fuel rest with
      | some out => some (c :: out)
      | none => none

/-- JavaScript `decodeURIComponent`, run with enough fuel. -/
def decodeURIComponentJs (s : List Char) : Option (List Char) :=
  decodeURICompF s.length s

/-- `safeBase64Encode` (post-handlers.js lines 177-186): base64 of the
UTF-8 bytes of `encodeURIComponent(str)` with every uppercase `%XX`
escape collapsed back to the raw character with that code.  The
`catch` fallback (`encodeURIComponent(str)`) is unreachable: none of the
involved operations throws for a well-formed string. -/
def safeBase64Encode (s : List Char) : List Char :=
  base64Encode (bufferFromUtf8 (percentToBytes (encodeURIComponentJs s)))

/-- `safeBase64Decode` (post-handlers.js lines 1008-1042):
`Buffer.from(encodedStr, 'base64').toString('utf8')`, then
`decodeURIComponent` of the result, falling back to the undecoded string
when `decodeURIComponent` throws.  The outer `catch` (percent-decoding
`encodedStr` itself) is unreachable in Node because the lenient base64
decoder never throws. -/
def safeBase64Decode (s : List Char) : List Char :=
  let decoded := utf8DecodeRepl (bufferFromBase64 s)
  match decodeURIComponentJs decoded with
  | some out => out
  | none => decoded

/-! ## Generic string helpers (JS `String` methods used by the source) -/

/-- ASCII lowercasing of one character (`String.toLowerCase` on the
ASCII range, which is all the source ever lowercases). -/
def lowerChar (c : Char) : Char :=
  if 65 ≤ code c && code c ≤ 90 then Char.ofNat (code c + 32) else c

/-- ASCII `String.toLowerCase`. -/
def lowerStr (s : List Char) : List Char := s.map lowerChar

/-- Fuel-driven body of `String.split` with a non-empty string
separator: left-to-right, non-overlapping. -/
def splitOnSubF (sep : List Char) : Nat → List Char → List (List Char)
  | _, [] => [[]]
  | 0, s => [s]
  | fuel + 1, c :: rest =>
    if sep ≠ [] && sep.isPrefixOf (c :: rest) then
      [] :: splitOnSubF sep fuel (List.drop sep.length (c :: rest))
    else
      match splitOnSubF sep fuel rest with
      | part :: parts => (c :: part) :: parts
      | [] => [[c]]

/-- JS `s.split(sep)` for a non-empty string separator. -/
def splitOnSub (sep s : List Char) : List (List Char) :=
  splitOnSubF sep s.length s

/-- JS `s.includes(sub)` (substring test). -/
def includesSub (s sub : List Char) : Bool :=
  match s with
  | [] => sub = []
  | _ :: rest => sub.isPrefixOf s || includesSub rest sub

/-- JS `s.replace(pat, rep)` for a *literal* pattern with the `g` flag:
replace every non-overlapping occurrence, left to right.  (Equal to
`split(pat).join(rep)`.) -/
def replaceAllSub (pat rep s : List Char) : List Char :=
  List.intercalate rep (splitOnSub pat s)

/-- JS `String.trim` restricted to blanks and tabs (the only whitespace
appearing in the modelled inputs). -/
def trimStr (s : List Char) : List Char :=
  (s.dropWhile (fun c => c = ' ' || c = '\t')).reverse.dropWhile
    (fun c => c = ' ' || c = '\t') |>.reverse

/-! ## WHATWG `URL` (the fragment of `new URL(...)` the source uses)

The parser models absolute URLs of the shape
`scheme://host[:port][/path][?query][#fragment]` without userinfo:
the scheme is lowercased; the hostname is lowercased and, for an IPv6
literal, *keeps its surrounding brackets* (WHATWG host serialization,
which is what Node's `url.hostname` getter returns); inputs whose host
needs further canonicalization (IPv4 numeric forms with leading zeros,
non-canonical IPv6 spellings, percent-encoded hosts) are outside the
modelled fragment and every theorem below uses already-canonical
hosts. -/

structure UrlRec where
  protocol : List Char
  hostname : List Char
  port : List Char
  pathname : List Char
  search : List Char
  hash : List Char
  deriving Repr, DecidableEq

/-- Is `c` an ASCII letter? -/
def isAlphaCh (c : Char) : Bool :=
  (65 ≤ code c && code c ≤ 90) || (97 ≤ code c && code c ≤ 122)

/-- Characters that terminate the authority component. -/
def isAuthorityEnd (c : Char) : Bool := c = '/' || c = '?' || c = '#'

/-- Parse `scheme://...`: returns the lowercased scheme (with `:`) and
the remainder after `://`. -/
def parseScheme (s : List Char) : Option (List Char × List Char) :=
  match s with
  | c :: _ =>
    if isAlphaCh c then
      let scheme := s.takeWhile (fun d => isAlphaCh d || isDigitCh d ||
        d = '+' || d = '-' || d = '.')
      let rest := s.drop scheme.length
      match rest with
      | ':' :: '/' :: '/' :: rest2 => some (lowerStr scheme ++ [':'], rest2)
      | _ => none
    else none
  | [] => none

/-- Split an authority into hostname and port.  IPv6 literals keep their
brackets in the hostname, matching the WHATWG host serializer. -/
def parseAuthority (auth : List Char) : Option (List Char × List Char) :=
  if auth.contains '@' then none
  else
    match auth with
    | '[' :: rest =>
      let inner := rest.takeWhile (fun c => c ≠ ']')
      match rest.drop inner.length with
      | ']' :: tail =>
        let hostname := '[' :: lowerStr inner ++ [']']
        match tail with
        | [] => some (hostname, [])
        | ':' :: ps => if ps ≠ [] && ps.all isDigitCh then some (hostname, ps) else none
        | _ => none
      | _ => none
    | _ =>
      let hostpart := auth.takeWhile (fun c => c ≠ ':')
      if hostpart = [] then none
      else
        match auth.drop hostpart.length with
        | [] => some (lowerStr hostpart, [])
        | ':' :: ps => if ps ≠ [] && ps.all isDigitCh then some (lowerStr hostpart, ps) else none
        | _ => none

/-- `new URL(s)` on the modelled fragment; `none` models the constructor
throwing `TypeError`. -/
def parseUrlM (s : List Char) : Option UrlRec :=
  match parseScheme s with
  | none => none
  | some (protocol, rest) =>
    let auth := rest.takeWhile (fun c => !isAuthorityEnd c)
    let tail := rest.drop auth.length
    match parseAuthority auth with
    | none => none
    | some (hostname, port) =>
      let pathname := tail.takeWhile (fun c => c ≠ '?' && c ≠ '#')
      let tail2 := tail.drop pathname.length
      let search := tail2.takeWhile (fun c => c ≠ '#')
      let hash := tail2.drop search.length
      some { protocol := protocol
             hostname := hostname
             port := port
             pathname := if pathname = [] then ['/'] else pathname
             search := search
             hash := hash }

/-- `url.host`: hostname plus `:port` when a port is present. -/
def urlHost (u : UrlRec) : List Char :=
  u.hostname ++ (if u.port = [] then [] else ':' :: u.port)

/-! ## `net.isIP` -/

/-- One dotted-decimal IPv4 octet as accepted by `net.isIP`: one to
three digits, no leading zero, value at most 255. -/
def isIPv4Octet (p : List Char) : Bool :=
  p ≠ [] && p.length ≤ 3 && p.all isDigitCh &&
  (p.length = 1 || p.head? ≠ some '0') &&
  (p.foldl (fun a c => a * 10 + (code c - 48)) 0) ≤ 255

/-- `net.isIPv4`. -/
def isIPv4Str (s : List Char) : Bool :=
  let parts := splitOnSub ['.'] s
  parts.length = 4 && parts.all isIPv4Octet

/-- A bare (bracket-free) IPv6 textual address: eight hex groups, or a
single `::` gap with at most seven groups.  Embedded IPv4 tails are not
modelled; the only call site feeds URL hostnames, where IPv6 literals
always carry brackets and therefore never reach a `true` here. -/
def isIPv6Str (s : List Char) : Bool :=
  let okGroups := fun (gs : List (List Char)) =>
    gs.all (fun p => p ≠ [] && p.length ≤ 4 && p.all isHexAny)
  match splitOnSub [':', ':'] s with
  | [t] =>
    let gs := splitOnSub [':'] t
    gs.length = 8 && okGroups gs
  | [a, b] =>
    let ga := if a = [] then [] else splitOnSub [':'] a
    let gb := if b = [] then [] else splitOnSub [':'] b
    okGroups ga && okGroups gb && ga.length + gb.length ≤ 7
  | _ => false

/-- Node `net.isIP`: 4, 6, or 0. -/
def netIsIP (s : List Char) : Nat :=
  if isIPv4Str s then 4 else if isIPv6Str s then 6 else 0

/-! ## `isValidUrl` (post-handlers.js lines 1049-1110)

Each of the private-range regexes is translated structurally.  Note
that the ULA pattern `/^[fF][cC0-9a-fA-F]{2}:/` has a character class
equal to *all* hex digits, and that `url.hostname` keeps the brackets
of an IPv6 literal, so `net.isIP(hostname)` is 0 for every IPv6 URL. -/

/-- One to three decimal digits (regex `\d{1,3}` between anchors/dots). -/
def isD13 (p : List Char) : Bool :=
  p ≠ [] && p.length ≤ 3 && p.all isDigitCh

/-- `/^10\.(\d{1,3}\.){2}\d{1,3}$/`. -/
def re10 (s : List Char) : Bool :=
  match splitOnSub ['.'] s with
  | [a, b, c, d] => a = ['1', '0'] && isD13 b && isD13 c && isD13 d
  | _ => false

/-- The alternation `(1[6-9]|2\d|3[01])`. -/
def re172Mid (p : List Char) : Bool :=
  match p with
  | ['1', c] => 54 ≤ code c && code c ≤ 57
  | ['2', c] => isDigitCh c
  | ['3', c] => c = '0' || c = '1'
  | _ => false

/-- `/^172\.(1[6-9]|2\d|3[01])\.(\d{1,3}\.){1}\d{1,3}$/`. -/
def re172 (s : List Char) : Bool :=
  match splitOnSub ['.'] s with
  | [a, b, c, d] => a = ['1', '7', '2'] && re172Mid b && isD13 c && isD13 d
  | _ => false

/-- `/^192\.168\.\d{1,3}\.\d{1,3}$/`. -/
def re192 (s : List Char) : Bool :=
  match splitOnSub ['.'] s with
  | [a, b, c, d] => a = ['1', '9', '2'] && b = ['1', '6', '8'] && isD13 c && isD13 d
  | _ => false

/-- `/^127\.(\d{1,3}\.){2}\d{1,3}$/`. -/
def re127 (s : List Char) : Bool :=
  match splitOnSub ['.'] s with
  | [a, b, c, d] => a = ['1', '2', '7'] && isD13 b && isD13 c && isD13 d
  | _ => false

/-- `/^169\.254\.(\d{1,3}\.){1}\d{1,3}$/`. -/
def re169 (s : List Char) : Bool :=
  match splitOnSub ['.'] s with
  | [a, b, c, d] => a = ['1', '6', '9'] && b = ['2', '5', '4'] && isD13 c && isD13 d
  | _ => false

/-- `/^0\.0\.0\.0$/`. -/
def re0000 (s : List Char) : Bool :=
  s = ['0', '.', '0', '.', '0', '.', '0']

/-- `/^::1$/`. -/
def reV6Loop (s : List Char) : Bool := s = [':', ':', '1']

/-- `/^[fF][cC0-9a-fA-F]{2}:/` — the class `[cC0-9a-fA-F]` is every hex
digit, so this matches any string starting `f`/`F`, two hex digits, `:`. -/
def reV6Ula (s : List Char) : Bool :=
  match s with
  | f :: a :: b :: c :: _ =>
    (f = 'f' || f = 'F') && isHexAny a && isHexAny b && c = ':'
  | _ => false

/-- `/^[fF][eE][89aAbB][0-9a-fA-F]:/`. -/
def reV6Link (s : List Char) : Bool :=
  match s with
  | f :: e :: x :: y :: c :: _ =>
    (f = 'f' || f = 'F') && (e = 'e' || e = 'E') &&
    (x = '8' || x = '9' || x = 'a' || x = 'A' || x = 'b' || x = 'B') &&
    isHexAny y && c = ':'
  | _ => false

/-- `isValidUrl` (post-handlers.js lines 1049-1110), translated
branch-for-branch. -/
def isValidUrl (url : List Char) : Bool :=
  match parseUrlM url with
  | none => false
  | some u =>
    if !(u.protocol = "http:".toList || u.protocol = "https:".toList) then false
    else
      let hostname := lowerStr u.hostname
      let ipVersion := netIsIP hostname
      if ipVersion ≠ 0 then
        if ipVersion = 4 &&
            (re10 hostname || re172 hostname || re192 hostname ||
             re127 hostname || re169 hostname || re0000 hostname) then false
        else if ipVersion = 6 &&
            (reV6Loop hostname || reV6Ula hostname || reV6Link hostname) then false
        else true
      else
        if hostname = "localhost".toList then false else true

/-! ## Connection manager (connection-manager.js): retry, classification

`executeWithRetry` is modelled as a function of the per-attempt outcomes
of the wrapped transport operation.  The operation is a function of the
attempt number and of the `isPostCloudflareBypass` flag (the only pieces
of the mutated context that influence the modelled control flow);
browser-fingerprint mutation and the backoff sleeps have no effect on
the returned value and are not modelled. -/

/-- The transport error codes named by the source. -/
inductive ErrCode
  | enotfound | econnrefused | etimedout | esockettimedout | econnreset
  | eaiAgain | enetunreach | ehostunreach | epipe | eproto | otherCode
  deriving Repr, DecidableEq

/-- An upstream response as far as the connection manager inspects it. -/
structure RespM where
  status : Nat
  serverHeaderCloudflare : Bool := false
  cfHeaders : Bool := false
  bodyCfMarkers : Bool := false
  deriving Repr, DecidableEq

/-- A transport-level exception as far as the connection manager
inspects it: its `code`, the status of an attached axios response if
any, and whether it is an axios error. -/
structure ErrM where
  errCode : Option ErrCode := none
  respStatus : Option Nat := none
  isAxiosErr : Bool := false
  deriving Repr, DecidableEq

/-- Outcome of one invocation of the wrapped operation. -/
inductive AttemptOutcome
  | ok (r : RespM)
  | fail (e : ErrM)
  deriving Repr, DecidableEq

/-- The `retryableErrors` list of `shouldRetry` (connection-manager.js
lines 412-422).  `ESOCKETTIMEDOUT` is *not* in it. -/
def retryableCodes : List ErrCode :=
  [.econnrefused, .econnreset, .etimedout, .enotfound, .eaiAgain,
   .enetunreach, .ehostunreach, .epipe, .eproto]

/-- The Cloudflare status-code family (lines 444-447). -/
def cfStatusCodes : List Nat := [520, 521, 522, 523, 524, 525, 526, 527, 530]

/-- `shouldRetry` (connection-manager.js lines 410-451); its `attempt`
argument never influences the result. -/
def shouldRetryM (e : ErrM) : Bool :=
  (match e.errCode with
   | some c => retryableCodes.contains c
   | none => false) ||
  (match e.respStatus with
   | some st =>
     (500 ≤ st && st < 600) || st = 408 || st = 429 || st = 503 ||
     cfStatusCodes.contains st
   | none => false)

/-- `isCloudflareResponse` (lines 345-383). -/
def isCloudflareResponseM (r : RespM) : Bool :=
  r.status = 403 || r.status = 503 || cfStatusCodes.contains r.status ||
  r.serverHeaderCloudflare || r.cfHeaders || r.bodyCfMarkers

/-- The aggregate counters of `this.stats` that the claims mention. -/
structure StatsM where
  totalRequests : Nat := 0
  successfulRequests : Nat := 0
  failedRequests : Nat := 0
  retriedRequests : Nat := 0
  totalRetries : Nat := 0
  deriving Repr, DecidableEq

/-- Final error thrown by `executeWithRetry` (lines 312-339): either one
of the classified `ProxyError` subtypes, or the raw transport error
rethrown unchanged. -/
inductive FinalErr
  | targetNotFound
  | targetConnRefused
  | requestTimeout
  | rawErr (e : ErrM)
  deriving Repr, DecidableEq

/-- The final classification switch of `executeWithRetry`: only
`ENOTFOUND`, `ECONNREFUSED`, `ETIMEDOUT` and `ESOCKETTIMEDOUT` map to
classified errors (the `ECONNRESET` case is commented out in the
source); every other failure — axios response errors included — is
rethrown raw. -/
def classifyFinal (e : ErrM) : FinalErr :=
  match e.errCode with
  | some .enotfound => .targetNotFound
  | some .econnrefused => .targetConnRefused
  | some .etimedout => .requestTimeout
  | some .esockettimedout => .requestTimeout
  | _ => .rawErr e

/-- `_handleCloudflareChallenge` (lines 173-215): on solver success the
operation is re-executed once with the post-bypass flag; a failing
solver or a throwing re-execution falls back to the initial response. -/
def cfChallengeM (op : Nat → Bool → AttemptOutcome) (solverOk : Bool)
    (attempt : Nat) (initial : RespM) : RespM :=
  if solverOk then
    match op attempt true with
    | .ok r2 => r2
    | .fail _ => initial
  else initial

/-- Result of the retry loop: the response and the attempt index on
which it succeeded, or the last error and the number of attempts made. -/
inductive LoopRes
  | succ (r : RespM) (attempt : Nat) (opCalls : Nat)
  | failed (e : ErrM) (attempts : Nat) (opCalls : Nat)
  deriving Repr, DecidableEq

/-- The `while (attempt <= maxRetries)` loop of `executeWithRetry`
(lines 234-299), fuel-driven: fuel `maxRetries + 1 - attempt` is always
positive when the loop re-enters, so the fuel-exhausted branch is
unreachable.  `opCalls` counts invocations of the operation (including
a Cloudflare re-execution). -/
def retryLoop (maxRetries : Nat) (cfBypass : Bool) (solverOk : Bool)
    (op : Nat → Bool → AttemptOutcome) : Nat → Nat → Nat → LoopRes
  | attempt, calls, fuel + 1 =>
    match op attempt false with
    | .ok r =>
      if cfBypass && isCloudflareResponseM r then
        let r2 := cfChallengeM op solverOk attempt r
        .succ r2 attempt (calls + 2)
      else
        .succ r attempt (calls + 1)
    | .fail e =>
      if attempt + 1 > maxRetries || !shouldRetryM e then
        .failed e (attempt + 1) (calls + 1)
      else
        retryLoop maxRetries cfBypass solverOk op (attempt + 1) (calls + 1) fuel
  | attempt, calls, 0 => .failed { } attempt calls

/-- `executeWithRetry` (connection-manager.js lines 223-340): runs the
retry loop, updates the counters, and classifies the final failure. -/
def executeWithRetryM (maxRetries : Nat) (cfBypass : Bool) (solverOk : Bool)
    (op : Nat → Bool → AttemptOutcome) (stats : StatsM) :
    Except FinalErr RespM × StatsM × Nat :=
  let stats1 := { stats with totalRequests := stats.totalRequests + 1 }
  match retryLoop maxRetries cfBypass solverOk op 0 0 (maxRetries + 1) with
  | .succ r attempt calls =>
    let stats2 :=
      { stats1 with
        successfulRequests := stats1.successfulRequests + 1
        retriedRequests :=
          stats1.retriedRequests + (if attempt > 0 then 1 else 0)
        totalRetries :=
          stats1.totalRetries + (if attempt > 0 then attempt else 0) }
    (.ok r, stats2, calls)
  | .failed e _ calls =>
    let stats2 := { stats1 with failedRequests := stats1.failedRequests + 1 }
    (.error (classifyFinal e), stats2, calls)

/-! ## Proxy handler and routing pipeline (proxy-handler.js, proxyRoutes.js)

Modelled far enough to settle the two temporal claims: the deny-list
check runs after the pre-handlers and throws `ACCESS_DENIED` *before*
`connectionManager.executeWithRetry` is invoked, and the global-mode
request conversion throws *before* `proxyHandler` is reached.  Deny
patterns are modelled as predicates (compiled valid regexes). -/

/-- The slice of `ProxyRequest` these claims depend on. -/
structure ReqM where
  urlNoSite : List Char
  deriving Repr, DecidableEq

/-- Outcome of `proxyHandler`: final status code and how many times the
transport operation ran. -/
structure PHRes where
  status : Nat
  opCalls : Nat
  deriving Repr, DecidableEq

/-- `proxyHandler` (proxy-handler.js lines 17-191): pre-handlers mutate
the request, the deny list is tested against the processed
`urlNoSite` (first match throws `ACCESS_DENIED`, caught at the bottom
as a 403 error response), then the connection manager executes the
transport operation.  Success maps to the upstream status; errors map
per the catch chain (`ECONNREFUSED`/`ENOTFOUND` 502, `ETIMEDOUT` 504,
axios response errors return the upstream response, anything else
500). -/
def proxyHandlerM (preHandlers : List (ReqM → ReqM))
    (denyList : List (ReqM → Bool)) (maxRetries : Nat) (cfBypass solverOk : Bool)
    (op : Nat → Bool → AttemptOutcome) (req : ReqM) : PHRes :=
  let processed := preHandlers.foldl (fun r h => h r) req
  if denyList.any (fun p => p processed) then
    { status := 403, opCalls := 0 }
  else
    match executeWithRetryM maxRetries cfBypass solverOk op { } with
    | (.ok r, _, calls) => { status := r.status, opCalls := calls }
    | (.error fe, _, calls) =>
      match fe with
      | .targetConnRefused => { status := 502, opCalls := calls }
      | .targetNotFound => { status := 502, opCalls := calls }
      | .requestTimeout => { status := 504, opCalls := calls }
      | .rawErr e =>
        match e.respStatus with
        | some st => { status := st, opCalls := calls }
        | none =>
          match e.errCode with
          | some .econnrefused => { status := 502, opCalls := calls }
          | some .enotfound => { status := 502, opCalls := calls }
          | some .etimedout => { status := 504, opCalls := calls }
          | _ => { status := 500, opCalls := calls }

/-- Errors of the global-mode conversion functions, with the HTTP
status of the corresponding `ProxyError` subclass
(`InvalidUrlError` 400, `RequestConversionError` 500). -/
inductive ConvErr
  | invalidUrl
  | conversionFailed
  deriving Repr, DecidableEq

/-- `statusCode` of the `ProxyError` subclass behind a `ConvErr`. -/
def convErrStatus : ConvErr → Nat
  | .invalidUrl => 400
  | .conversionFailed => 500

/-- `extractTargetSiteFromProxyUrl` (post-handlers.js lines 1259-1280):
split the request URL on `/<globalProxyPath>/`, base64-decode the
second piece, validate it, and return `protocol//host`. -/
def extractTargetSiteM (requestUrl g : List Char) : Except ConvErr (List Char) :=
  let parts := splitOnSub ('/' :: g ++ ['/']) requestUrl
  if parts.length < 2 then .error .invalidUrl
  else
    let encoded := parts[1]!
    let target := safeBase64Decode encoded
    if !isValidUrl target then .error .invalidUrl
    else
      match parseUrlM target with
      | some u => .ok (u.protocol ++ '/' :: '/' :: urlHost u)
      | none => .error .conversionFailed

/-- The slice of `requestProxyConvert` (post-handlers.js lines
1199-1251) that decides acceptance: the same split, decode and
validation; on success the target's path+query+hash becomes
`urlNoSite`.  `safeBase64Decode` never throws, so the
`decodeURIComponent` fallback in its `catch` is dead code. -/
def requestProxyConvertM (requestUrl g : List Char) : Except ConvErr ReqM :=
  let parts := splitOnSub ('/' :: g ++ ['/']) requestUrl
  if parts.length < 2 then .error .invalidUrl
  else
    let encoded := parts[1]!
    let target := safeBase64Decode encoded
    if !isValidUrl target then .error .invalidUrl
    else
      match parseUrlM target with
      | some u => .ok { urlNoSite := u.pathname ++ u.search ++ u.hash }
      | none => .error .conversionFailed

/-- Result of the routed request: status code sent to the client and
the number of transport-operation invocations. -/
structure RouteRes where
  status : Nat
  opCalls : Nat
  deriving Repr, DecidableEq

/-- `handleProxyRequest` in global mode (proxyRoutes.js lines 68-136):
`extractTargetSiteFromProxyUrl` and `requestProxyConvert` run first and
any error returns a 400 JSON response before `proxyHandler` — and hence
the connection manager — is ever reached. -/
def handleGlobalM (requestUrl g : List Char)
    (preHandlers : List (ReqM → ReqM)) (denyList : List (ReqM → Bool))
    (maxRetries : Nat) (cfBypass solverOk : Bool)
    (op : Nat → Bool → AttemptOutcome) : RouteRes :=
  match extractTargetSiteM requestUrl g with
  | .error _ => { status := 400, opCalls := 0 }
  | .ok _ =>
    match requestProxyConvertM requestUrl g with
    | .error _ => { status := 400, opCalls := 0 }
    | .ok req =>
      let r := proxyHandlerM preHandlers denyList maxRetries cfBypass solverOk op req
      { status := r.status, opCalls := r.opCalls }

/-! ## Cookie translator (cookie-parser.js, `tough-cookie` fragment)

`handleSetCookieFromUpstream` (cookie-parser.js lines 153-215) parses
each upstream `Set-Cookie` with `tough-cookie`, stores it in the jar,
and serializes a client-facing clone.  The used fragment of
`tough-cookie` v4 is modelled from its documented behaviour: parsing of
`key=value` plus the `Domain`/`Path`/`Secure`/`HttpOnly`/`SameSite`
attributes (`Domain` is trimmed of one leading dot and lowercased), and
`Cookie.prototype.toString`, which emits `key=value`, then `Domain`
(only when `hostOnly` is falsy), `Path`, `Secure`, `HttpOnly`, and
`SameSite` in canonical capitalization unless it is `none`.
`Expires`/`Max-Age` and extension attributes are outside the modelled
fragment; the claims only use cookies without them. -/

structure CookieM where
  key : List Char
  value : List Char
  domain : Option (List Char) := none
  cpath : Option (List Char) := none
  secure : Bool := false
  httpOnly : Bool := false
  hostOnly : Bool := false
  sameSite : Option (List Char) := none
  deriving Repr, DecidableEq

/-- Apply one parsed attribute to a cookie (tough-cookie `parse`). -/
def applyCookieAttr (c : CookieM) (attr : List Char) : CookieM :=
  let eqSplit := splitOnSub ['='] attr
  let rawKey := eqSplit.headD []
  let key := lowerStr (trimStr rawKey)
  let value := trimStr (List.intercalate ['='] (eqSplit.drop 1))
  if key = "domain".toList then
    if value = [] then c
    else
      let d := match value with
               | '.' :: rest => rest
               | v => v
      { c with domain := some (lowerStr d) }
  else if key = "path".toList then
    if value = [] then c else { c with cpath := some value }
  else if key = "secure".toList then { c with secure := true }
  else if key = "httponly".toList then { c with httpOnly := true }
  else if key = "samesite".toList then
    let v := lowerStr value
    if v = "strict".toList || v = "lax".toList || v = "none".toList then
      { c with sameSite := some v }
    else { c with sameSite := none }
  else c

/-- `Cookie.parse` (loose) on the modelled fragment: first `;`-part is
`key=value`, the rest are attributes. -/
def parseCookieM (s : List Char) : Option CookieM :=
  match splitOnSub [';'] s with
  | [] => none
  | pair :: attrs =>
    let eqSplit := splitOnSub ['='] pair
    match eqSplit with
    | [] => none
    | [_] => none
    | k :: vs =>
      let key := trimStr k
      if key = [] then none
      else
        let base : CookieM :=
          { key := key, value := trimStr (List.intercalate ['='] vs) }
        some ((attrs.map trimStr).foldl applyCookieAttr base)

/-- `Cookie.prototype.toString` on the modelled fragment. -/
def cookieToString (c : CookieM) : List Char :=
  c.key ++ '=' :: c.value ++
  (match c.domain with
   | some d => if !c.hostOnly then "; Domain=".toList ++ d else []
   | none => []) ++
  (match c.cpath with
   | some p => "; Path=".toList ++ p
   | none => []) ++
  (if c.secure then "; Secure".toList else []) ++
  (if c.httpOnly then "; HttpOnly".toList else []) ++
  (match c.sameSite with
   | some ss =>
     if ss ≠ "none".toList then
       "; SameSite=".toList ++
       (if ss = "strict".toList then "Strict".toList
        else if ss = "lax".toList then "Lax".toList
        else ss)
     else []
   | none => [])

/-- tough-cookie `domainMatch`: the host equals the cookie domain or
ends with `.` + the domain. -/
def domainMatchM (host dom : List Char) : Bool :=
  host = dom || (('.' :: dom).isSuffixOf host)

/-- `jar.setCookieSync(cookieStr, upstreamUrl)` throws when the
cookie's `Domain` does not domain-match the URL's host; the `catch`
then skips the cookie.  Only that accept/reject distinction is
modelled (jar storage does not influence the returned headers). -/
def jarAccepts (c : CookieM) (upstreamHost : List Char) : Bool :=
  match c.domain with
  | some d => domainMatchM upstreamHost d
  | none => true

/-- `handleSetCookieFromUpstream` (cookie-parser.js lines 153-215). -/
def handleSetCookieFromUpstreamM (headers : List (List Char))
    (upstreamUrl proxyUrl : List Char) : List (List Char) :=
  match parseUrlM proxyUrl, parseUrlM upstreamUrl with
  | some pu, some uu =>
    let proxyHost := pu.hostname
    let proxyIsHttp := pu.protocol = "http:".toList
    headers.foldr
      (fun cookieStr acc =>
        match parseCookieM cookieStr with
        | none => acc
        | some c0 =>
          if !jarAccepts c0 uu.hostname then acc
          else
            let c1 := { c0 with domain := some proxyHost, hostOnly := false }
            let c2 := if proxyIsHttp && c1.secure then { c1 with secure := false } else c1
            let ss0 := match c2.sameSite with
                       | some s => lowerStr s
                       | none => "lax".toList
            let ss1 := if proxyIsHttp && ss0 = "none".toList then "lax".toList else ss0
            let ss2 := if !proxyIsHttp && ss1 = "none".toList && !c2.secure then
                         "lax".toList
                       else ss1
            let c3 := { c2 with sameSite := some ss2 }
            cookieToString c3 :: acc)
      []
  | _, _ => headers

/-! ## Replace rules (post-handlers.js lines 502-550) and the used
fragment of JS `RegExp`

Both `matchType` branches compile the (placeholder-substituted) search
string with `new RegExp(searchStr, 'g')` — the "literal" branch does
not escape metacharacters — and a rule whose pattern fails to compile
is skipped by the surrounding `try`/`catch`.  The `RegExp` fragment
modelled here covers patterns built from literal characters and the
`.` wildcard, and it reports the one syntax error the claims exercise:
an unterminated group `(` (any parenthesis lies outside the modelled
fragment and is treated as failing to compile, which for a lone `(` or
`)` coincides with JS).  Replacement strings are inserted literally
(`$`-escapes in replacements are not used by the claims). -/

inductive RTok
  | lit (c : Char)
  | dot
  deriving Repr, DecidableEq

/-- Compile the modelled `RegExp` fragment; `none` models the
constructor throwing `SyntaxError`. -/
def compileRegexM : List Char → Option (List RTok)
  | [] => some []
  | c :: rest =>
    if c = '(' || c = ')' || c = '[' || c = ']' || c = '*' || c = '+' ||
        c = '?' || c = '|' || c = '^' || c = '$' || c = '\\' then none
    else
      match compileRegexM rest with
      | some toks => some ((if c = '.' then RTok.dot else RTok.lit c) :: toks)
      | none => none

/-- Does one token match one character?  JS `.` matches everything but
line terminators. -/
def rtokMatches (t : RTok) (c : Char) : Bool :=
  match t with
  | .lit d => c = d
  | .dot => !(c = '\n' || c = '\r' || code c = 0x2028 || code c = 0x2029)

/-- Match a token list against a prefix of `s`. -/
def rmatchesAt : List RTok → List Char → Bool
  | [], _ => true
  | _ :: _, [] => false
  | t :: ts, c :: rest => rtokMatches t c && rmatchesAt ts rest

/-- Fuel-driven global regex replace (`String.replace` with the `g`
flag): leftmost, non-overlapping; a zero-length match inserts the
replacement and advances one character, as JS does. -/
def regexReplaceF (re : List RTok) (rep : List Char) : Nat → List Char → List Char
  | _, [] => if rmatchesAt re [] then rep else []
  | 0, s => s
  | fuel + 1, c :: rest =>
    if rmatchesAt re (c :: rest) then
      if re.length = 0 then rep ++ c :: regexReplaceF re rep fuel rest
      else rep ++ regexReplaceF re rep fuel (List.drop (re.length - 1) rest)
    else c :: regexReplaceF re rep fuel rest

/-- JS `s.replace(new RegExp(pat, 'g'), rep)` on the modelled fragment. -/
def regexReplaceAll (re : List RTok) (rep s : List Char) : List Char :=
  regexReplaceF re rep s.length s

/-- One replace rule applied to content (post-handlers.js lines
536-543): both branches of the `matchType` test compile `searchStr` as
a regex; a compile failure is caught and skips the rule. -/
def applyRuleM (content searchStr replaceStr : List Char) (matchType : Nat) :
    List Char :=
  match compileRegexM searchStr with
  | none => content
  | some re =>
    if matchType = 2 then regexReplaceAll re replaceStr content
    else regexReplaceAll re replaceStr content

/-! ## Content rewrite engine: `enhancedUrlReplace` (post-handlers.js
lines 170-217)

Three sequential global replaces over the content:
1. `content.replace(new RegExp(originalSite, 'g'), proxySite)` — the
   site string is compiled as a regex, so its dots are wildcards;
2. protocol-relative references `//(?:www\.)?<originalHost>` (host dots
   escaped) replaced by `//<proxyHost>`;
3. every remaining absolute URL `(https?:\/\/[^\s"'<>()]+)` that does
   not contain the proxy site or the global proxy path is replaced by
   `proxySite/globalProxyPath/<safeBase64Encode(url)>`.
Each `replace` finds its matches left-to-right and non-overlapping in
its input, exactly as JS `String.replace` with the `g` flag. -/

/-- The character class `[^\s"'<>()]`.  `\s` is modelled on the ASCII
whitespace characters plus NBSP; the claims only use ASCII content. -/
def allowedUrlChar (c : Char) : Bool :=
  !(c = ' ' || c = '\t' || c = '\n' || c = '\r' || code c = 11 ||
    code c = 12 || code c = 0xA0 || code c = 0xFEFF ||
    c = '"' || c = '\'' || c = '<' || c = '>' || c = '(' || c = ')')

/-- Generic fuel-driven global replace driven by a match-length
function; a zero-length match inserts the replacement and advances one
character, as JS does. -/
def scanReplaceF (matchLen : List Char → Option Nat) (rep : List Char) :
    Nat → List Char → List Char
  | _, [] => match matchLen [] with
             | some _ => rep
             | none => []
  | 0, s => s
  | fuel + 1, c :: rest =>
    match matchLen (c :: rest) with
    | some 0 => rep ++ c :: scanReplaceF matchLen rep fuel rest
    | some (k + 1) => rep ++ scanReplaceF matchLen rep fuel (List.drop k rest)
    | none => c :: scanReplaceF matchLen rep fuel rest

/-- Generic global replace with enough fuel. -/
def scanReplace (matchLen : List Char → Option Nat) (rep s : List Char) :
    List Char :=
  scanReplaceF matchLen rep s.length s

/-- Match length of `//(?:www\.)?<host>` at the start of `s`: the
greedy optional `www.` group is tried first, with backtracking. -/
def step2MatchLen (host : List Char) (s : List Char) : Option Nat :=
  match s with
  | a :: b :: rest =>
    if a = '/' && b = '/' then
      if ("www.".toList).isPrefixOf rest && host.isPrefixOf (rest.drop 4) then
        some (2 + 4 + host.length)
      else if host.isPrefixOf rest then some (2 + host.length)
      else none
    else none
  | _ => none

/-- `site.replace(/https?:\/\//, '')` — remove the first (leftmost)
`http://` or `https://`. -/
def stripSchemeF : Nat → List Char → List Char
  | _, [] => []
  | 0, s => s
  | fuel + 1, c :: rest =>
    if ("https://".toList).isPrefixOf (c :: rest) then rest.drop 7
    else if ("http://".toList).isPrefixOf (c :: rest) then rest.drop 6
    else c :: stripSchemeF fuel rest

/-- `site.replace(/https?:\/\//, '')` with enough fuel. -/
def stripScheme (s : List Char) : List Char := stripSchemeF s.length s

/-- The absolute-URL regex `(https?:\/\/[^\s"'<>()]+)` matched at the
start of `s`: the scheme prefix, then a non-empty maximal run of
allowed characters. -/
def step3MatchAt (s : List Char) : Option (List Char) :=
  if ("https://".toList).isPrefixOf s then
    let run := (s.drop 8).takeWhile allowedUrlChar
    if run = [] then none else some ("https://".toList ++ run)
  else if ("http://".toList).isPrefixOf s then
    let run := (s.drop 7).takeWhile allowedUrlChar
    if run = [] then none else some ("http://".toList ++ run)
  else none

/-- Fuel-driven scan of step 3: each matched URL is kept when it
already contains the proxy site or the global proxy path, otherwise it
is replaced by `proxySite/globalProxyPath/<base64>`. -/
def step3ScanF (p g : List Char) : Nat → List Char → List Char
  | _, [] => []
  | 0, s => s
  | fuel + 1, c :: rest =>
    match step3MatchAt (c :: rest) with
    | some m =>
      (if includesSub m p || includesSub m g then m
       else p ++ '/' :: g ++ '/' :: safeBase64Encode m) ++
        step3ScanF p g fuel (List.drop (m.length - 1) rest)
    | none => c :: step3ScanF p g fuel rest

/-- Step 3 with enough fuel. -/
def step3Scan (p g s : List Char) : List Char := step3ScanF p g s.length s

/-- `enhancedUrlReplace(content, originalSite, proxySite,
globalProxyPath)` (post-handlers.js lines 170-217).  A site string
whose characters fall outside the modelled `RegExp` fragment would
throw in step 1 and be returned unchanged by the surrounding `catch`;
URL-shaped site strings (letters, digits, `:`, `/`, `.`, `-`) are
always inside the fragment. -/
def enhancedUrlReplaceM (content o p g : List Char) : List Char :=
  match compileRegexM o with
  | none => content
  | some re =>
    let s1 := regexReplaceAll re p content
    let host0 := stripScheme o
    let r2 := '/' :: '/' :: stripScheme p
    let s2 := scanReplace (step2MatchLen host0) r2 s1
    step3Scan p g s2

/-! ## Notions used by the idempotence analysis of `enhancedUrlReplace` -/

/-- Literal token list of a string. -/
def litToks (s : List Char) : List RTok := s.map RTok.lit

/-- Pointwise compatibility of a token list with a string on their
common length: no disagreement before one of the two runs out.  When
this fails, no extension of the string can match the tokens. -/
def agreesPre : List RTok → List Char → Bool
  | [], _ => true
  | _ :: _, [] => true
  | t :: ts, c :: cs => rtokMatches t c && agreesPre ts cs

/-- The pattern `re` matches at no position of `s`. -/
def noMatchAll (re : List RTok) (s : List Char) : Prop :=
  ∀ t, t <:+ s → rmatchesAt re t = false

/-- Fuel-driven check that step 3 leaves `s` unchanged: every match it
finds already contains the proxy site or the global proxy path. -/
def s3UnchangedF (p g : List Char) : Nat → List Char → Bool
  | _, [] => true
  | 0, _ => true
  | fuel + 1, c :: rest =>
    match step3MatchAt (c :: rest) with
    | some m =>
      (includesSub m p || includesSub m g) &&
        s3UnchangedF p g fuel (List.drop (m.length - 1) rest)
    | none => s3UnchangedF p g fuel rest

/-- Step 3 leaves `s` unchanged (with enough fuel). -/
def s3Unchanged (p g s : List Char) : Bool := s3UnchangedF p g s.length s

/-- The representative separated triple used by the idempotence
theorem: the upstream site of the spec's own end-to-end example, a
proxy site sharing no host material with it, and the proxy path `gp`. -/
def oSite : List Char := "https://example.com".toList

/-- Proxy site of the representative triple. -/
def pSite : List Char := "https://proxy.local".toList

/-- Global proxy path of the representative triple. -/
def gPath : List Char := "gp".toList

/-- The regex `new RegExp(originalSite, 'g')` compiles to for the
representative upstream site: literal tokens with a wildcard at the
dot. -/
def reO : List RTok := oSite.map (fun c => if c = '.' then RTok.dot else RTok.lit c)

/-- The protocol-relative pattern without the optional `www.`. -/
def pat2a : List RTok := litToks ('/' :: '/' :: stripScheme oSite)

/-- The protocol-relative pattern with the `www.` alternative. -/
def pat2b : List RTok := litToks ('/' :: '/' :: ("www.".toList ++ stripScheme oSite))

/-- Step 2's replacement string for the representative triple. -/
def r2C : List Char := '/' :: '/' :: stripScheme pSite

/-- Step 3's replacement for an encoded URL `m`. -/
def r3C (m : List Char) : List Char :=
  pSite ++ '/' :: gPath ++ '/' :: safeBase64Encode m

/-- The fixed (base64-independent) part of `r3C`. -/
def fixedR3 : List Char := pSite ++ '/' :: gPath ++ ['/']

/-- Does `t` start with a character the URL character class rejects
(or is empty)?  The text right after a step-3 match always does. -/
def headBreaker (t : List Char) : Bool :=
  match t with
  | [] => true
  | b :: _ => !allowedUrlChar b

/-- Characters that can occur in `safeBase64Encode` output: allowed in
URL runs, never a colon, never a dot. -/
def goodB64 (ch : Char) : Bool :=
  allowedUrlChar ch && !(ch = ':') && !(ch = '.')

/-- Is the token a literal whose character the URL character class
accepts?  (The anchors of the idempotence refutations are literal
tokens preceded only by such tokens.) -/
def allowedLit : RTok → Bool
  | .lit d => allowedUrlChar d
  | .dot => false

/-!
# Theorems

Helper lemmas first, then one named theorem (plus witness or
counterexample where required) per claim.
-/

/-! ## Round-trip lemmas for the URL codec -/

theorem hexDigitUpper_spec : ∀ n < 16,
    isHexUpper (hexDigitUpper n) = true ∧ hexVal (hexDigitUpper n) = n := by
  decide

theorem utf8Encode_ascii (n : Nat) (h : n < 128) : utf8Encode n = [n] := by
  rw [utf8Encode, if_pos (by omega : n < 0x80)]

theorem charOfNat_code (c : Char) : Char.ofNat (code c) = c := by
  simp [code, Char.ofNat_toNat]

theorem encodeURIComponentJs_cons (c : Char) (rest : List Char) :
    encodeURIComponentJs (c :: rest) =
      (if isUriUnescaped c then [c]
       else (utf8Encode (code c)).flatMap (fun b => '%' :: hexByte b)) ++
        encodeURIComponentJs rest := by
  rw [encodeURIComponentJs, List.flatMap_cons]
  rfl

theorem percentToBytesF_encode_ascii (u : List Char) (h : ∀ c ∈ u, code c < 128) :
    ∀ fuel, (encodeURIComponentJs u).length ≤ fuel →
      percentToBytesF fuel (encodeURIComponentJs u) = u := by
  induction u with
  | nil =>
    intro fuel _
    rw [encodeURIComponentJs, List.flatMap_nil]
    cases fuel <;> rfl
  | cons c rest ih =>
    intro fuel hfuel
    have hc : code c < 128 := h c (by simp)
    have hrest : ∀ d ∈ rest, code d < 128 := fun d hd => h d (by simp [hd])
    rw [encodeURIComponentJs_cons] at hfuel ⊢
    by_cases hu : isUriUnescaped c = true
    · rw [hu] at hfuel ⊢
      simp only [if_true, List.singleton_append] at hfuel ⊢
      have hcp : c ≠ '%' := by
        intro he
        rw [he] at hu
        exact absurd hu (by decide)
      match fuel with
      | 0 => simp at hfuel
      | fl + 1 =>
        rw [percentToBytesF.eq_def]
        dsimp only
        rw [if_neg hcp]
        rw [ih hrest fl (by simp only [List.length_cons] at hfuel; omega)]
    · rw [if_neg hu, utf8Encode_ascii (code c) hc] at hfuel ⊢
      simp only [List.flatMap_cons, List.flatMap_nil, List.append_nil, hexByte,
        List.nil_append, List.cons_append] at hfuel ⊢
      have h1 := (hexDigitUpper_spec (code c / 16) (by omega)).1
      have h2 := (hexDigitUpper_spec (code c % 16) (by omega)).1
      have v1 := (hexDigitUpper_spec (code c / 16) (by omega)).2
      have v2 := (hexDigitUpper_spec (code c % 16) (by omega)).2
      match fuel with
      | 0 => simp at hfuel
      | fl + 1 =>
        rw [percentToBytesF.eq_def]
        dsimp only
        rw [if_pos rfl, h1, h2]
        simp only [Bool.and_self, if_true]
        have hdm : hexVal (hexDigitUpper (code c / 16)) * 16 +
            hexVal (hexDigitUpper (code c % 16)) = code c := by
          rw [v1, v2]
          omega
        rw [hdm, charOfNat_code]
        rw [ih hrest fl (by simp only [List.length_cons] at hfuel; omega)]

theorem percentToBytes_encode_ascii (u : List Char) (h : ∀ c ∈ u, code c < 128) :
    percentToBytes (encodeURIComponentJs u) = u :=
  percentToBytesF_encode_ascii u h _ le_rfl

theorem bufferFromUtf8_ascii (u : List Char) (h : ∀ c ∈ u, code c < 128) :
    bufferFromUtf8 u = u.map code := by
  induction u with
  | nil => rfl
  | cons c rest ih =>
    rw [bufferFromUtf8, List.flatMap_cons, utf8Encode_ascii _ (h c (by simp)),
      List.map_cons, ← bufferFromUtf8, ih (fun d hd => h d (by simp [hd]))]
    rfl

theorem b64Char_spec : ∀ v < 64, b64Val (b64Char v) = some v ∧ b64Char v ≠ '=' := by
  decide

theorem bytesToVals_lt (bs : List Nat) (h : ∀ b ∈ bs, b < 256) :
    ∀ v ∈ bytesToVals bs, v < 64 := by
  match bs with
  | [] => simp [bytesToVals]
  | [b1] =>
    have := h b1 (by simp)
    simp [bytesToVals]
    omega
  | [b1, b2] =>
    have := h b1 (by simp)
    have := h b2 (by simp)
    simp [bytesToVals]
    omega
  | b1 :: b2 :: b3 :: rest =>
    have h1 := h b1 (by simp)
    have h2 := h b2 (by simp)
    have h3 := h b3 (by simp)
    have ih := bytesToVals_lt rest (fun b hb => h b (by simp [hb]))
    simp only [bytesToVals, List.mem_cons]
    rintro v (rfl | rfl | rfl | rfl | hv)
    · omega
    · omega
    · omega
    · omega
    · exact ih v hv

theorem b64Collect_map (vs : List Nat) (h : ∀ v ∈ vs, v < 64) (tail : List Char)
    (htail : b64Collect tail = []) :
    b64Collect (vs.map b64Char ++ tail) = vs := by
  induction vs with
  | nil => simpa using htail
  | cons v rest ih =>
    have hv := h v (by simp)
    have hval := (b64Char_spec v hv).1
    have hne := (b64Char_spec v hv).2
    rw [List.map_cons, List.cons_append, b64Collect]
    simp only [hne, if_neg, hval]
    rw [ih (fun w hw => h w (by simp [hw]))]
    simp [hne]

theorem b64Collect_pad (n : Nat) : b64Collect (b64Pad n) = [] := by
  unfold b64Pad
  split
  · rfl
  · split
    · rfl
    · rfl

theorem valsToBytes_bytesToVals (bs : List Nat) (h : ∀ b ∈ bs, b < 256) :
    valsToBytes (bytesToVals bs) = bs := by
  match bs with
  | [] => rfl
  | [b1] =>
    have := h b1 (by simp)
    show valsToBytes [b1 / 4, b1 % 4 * 16] = [b1]
    unfold valsToBytes
    congr 1
    omega
  | [b1, b2] =>
    have := h b1 (by simp)
    have := h b2 (by simp)
    show valsToBytes [b1 / 4, b1 % 4 * 16 + b2 / 16, b2 % 16 * 4] = [b1, b2]
    unfold valsToBytes
    congr 1
    · omega
    · congr 1
      omega
  | b1 :: b2 :: b3 :: rest =>
    have h1 := h b1 (by simp)
    have h2 := h b2 (by simp)
    have h3 := h b3 (by simp)
    have ih := valsToBytes_bytesToVals rest (fun b hb => h b (by simp [hb]))
    show valsToBytes (_ :: _ :: _ :: _ :: bytesToVals rest) = _
    rw [valsToBytes]
    rw [ih]
    congr 1
    · omega
    · congr 1
      · omega
      · congr 1
        omega

theorem bufferFromBase64_encode (bs : List Nat) (h : ∀ b ∈ bs, b < 256) :
    bufferFromBase64 (base64Encode bs) = bs := by
  rw [bufferFromBase64, base64Encode,
    b64Collect_map _ (bytesToVals_lt bs h) _ (b64Collect_pad bs.length),
    valsToBytes_bytesToVals bs h]

theorem utf8DecodeReplF_ascii (fuel : Nat) (bs : List Nat)
    (hfuel : bs.length ≤ fuel) (h : ∀ b ∈ bs, b < 128) :
    utf8DecodeReplF fuel bs = bs.map Char.ofNat := by
  induction fuel generalizing bs with
  | zero =>
    match bs with
    | [] => rfl
    | b :: rest => simp at hfuel
  | succ fuel ih =>
    match bs with
    | [] => rfl
    | b :: rest =>
      have hb : b < 128 := h b (by simp)
      have hlen : rest.length ≤ fuel := by
        simp only [List.length_cons] at hfuel
        omega
      rw [utf8DecodeReplF.eq_def]
      dsimp only
      rw [if_pos (by omega : b < 0x80)]
      rw [ih rest hlen (fun x hx => h x (by simp [hx]))]
      rfl

theorem utf8DecodeRepl_ascii (bs : List Nat) (h : ∀ b ∈ bs, b < 128) :
    utf8DecodeRepl bs = bs.map Char.ofNat :=
  utf8DecodeReplF_ascii bs.length bs le_rfl h

theorem decodeURICompF_no_pct (fuel : Nat) (s : List Char)
    (hfuel : s.length ≤ fuel) (h : '%' ∉ s) :
    decodeURICompF fuel s = some s := by
  induction fuel generalizing s with
  | zero =>
    match s with
    | [] => rfl
    | c :: rest => simp at hfuel
  | succ fuel ih =>
    match s with
    | [] => rfl
    | c :: rest =>
      have hc : c ≠ '%' := fun he => h (by simp [he])
      have hrest : '%' ∉ rest := fun hr => h (by simp [hr])
      have hlen : rest.length ≤ fuel := by
        simp only [List.length_cons] at hfuel
        omega
      rw [decodeURICompF.eq_def]
      dsimp only
      rw [if_neg hc]
      rw [ih rest hlen hrest]

theorem decodeURIComponentJs_no_pct (s : List Char) (h : '%' ∉ s) :
    decodeURIComponentJs s = some s :=
  decodeURICompF_no_pct s.length s le_rfl h

/-- The spec claims `decode(encode(u)) = u` for every absolute URL; the
restriction that actually holds is: `u` all-ASCII and without `%`. -/
theorem safeBase64_roundtrip_ascii_helper (u : List Char)
    (hascii : ∀ c ∈ u, code c < 128) (hpct : '%' ∉ u) :
    safeBase64Decode (safeBase64Encode u) = u := by
  have hmap : ∀ b ∈ u.map code, b < 128 := by
    intro b hb
    rcases List.mem_map.mp hb with ⟨c, hc, rfl⟩
    exact hascii c hc
  rw [safeBase64Encode, percentToBytes_encode_ascii u hascii,
    bufferFromUtf8_ascii u hascii, safeBase64Decode]
  rw [bufferFromBase64_encode _ (fun b hb => Nat.lt_of_lt_of_le (hmap b hb) (by norm_num))]
  rw [utf8DecodeRepl_ascii _ hmap]
  have hid : (u.map code).map Char.ofNat = u := by
    rw [List.map_map]
    have : (Char.ofNat ∘ code) = id := funext charOfNat_code
    rw [this, List.map_id]
  rw [hid, decodeURIComponentJs_no_pct u hpct]

/-! ## Claim C1 -/

/-- C1 counterexample: the claim `safeBase64Decode (safeBase64Encode u)
= u` for *every* absolute http(s) URL fails as soon as the URL contains
a percent-escape: for `u = "https://x.io/?q=%2C"` the decoder's final
`decodeURIComponent` collapses `%2C` to `,`, returning
`"https://x.io/?q=,"` instead of `u`. -/
theorem c1_roundtrip_counterexample :
    safeBase64Decode (safeBase64Encode ("https://x.io/?q=%2C".toList)) =
      "https://x.io/?q=,".toList ∧
    safeBase64Decode (safeBase64Encode ("https://x.io/?q=%2C".toList)) ≠
      "https://x.io/?q=%2C".toList := by
  constructor
  · decide
  · decide

/-- C1 amended: `safeBase64Decode (safeBase64Encode u) = u` holds for
every URL consisting of ASCII characters and containing no `%`
character (the encoder's `encodeURIComponent`/`%XX`-collapse round-trip
is the identity on such strings, base64 and UTF-8 decoding invert the
encoding, and the decoder's trailing `decodeURIComponent` is the
identity on `%`-free strings). -/
theorem c1_roundtrip_amended (u : List Char)
    (hascii : ∀ c ∈ u, code c < 128) (hpct : '%' ∉ u) :
    safeBase64Decode (safeBase64Encode u) = u :=
  safeBase64_roundtrip_ascii_helper u hascii hpct

/-- C1 witness: the amended round-trip at the concrete URL
`https://example.com/path?x=1`. -/
theorem c1_roundtrip_amended_witness :
    (∀ c ∈ "https://example.com/path?x=1".toList, code c < 128) ∧
    '%' ∉ "https://example.com/path?x=1".toList ∧
    safeBase64Decode (safeBase64Encode ("https://example.com/path?x=1".toList)) =
      "https://example.com/path?x=1".toList :=
  ⟨by decide, by decide,
    c1_roundtrip_amended ("https://example.com/path?x=1".toList)
      (by decide) (by decide)⟩

/-! ## Claim C2 -/

/-- C2: the validator rejects the listed IPv4, localhost and non-http
inputs and accepts `https://example.com/path?x=1` — but, contrary to
the claim, it *accepts* every IPv6 URL, `http://[::1]/` included:
WHATWG `url.hostname` keeps the brackets of an IPv6 literal, so
`net.isIP('[::1]')` is 0, the IPv6 patterns never run, and the
non-localhost fallback returns `true`.  This contradicts the code's own
comments (which say IPv6 loopback/ULA/link-local are rejected) and the
spec, so the IPv6 half of the claim is a code bug. -/
theorem c2_validator_eval :
    isValidUrl ("http://127.0.0.1/".toList) = false ∧
    isValidUrl ("http://10.0.0.5/".toList) = false ∧
    isValidUrl ("http://192.168.1.1/".toList) = false ∧
    isValidUrl ("http://172.16.0.1/".toList) = false ∧
    isValidUrl ("http://169.254.1.1/".toList) = false ∧
    isValidUrl ("http://0.0.0.0/".toList) = false ∧
    isValidUrl ("http://localhost/".toList) = false ∧
    isValidUrl ("ftp://example.com/".toList) = false ∧
    isValidUrl ("https://example.com/path?x=1".toList) = true ∧
    isValidUrl ("http://[::1]/".toList) = true ∧
    isValidUrl ("http://[fc00::1]/".toList) = true ∧
    isValidUrl ("http://[fe80::1]/".toList) = true := by
  decide

/-! ## Claim C4 -/

/-- C4: rewriting the upstream `Set-Cookie` header
`name=v; Domain=example.com; Secure` for a plain-HTTP proxy origin
`http://proxy.local` yields `name=v; Domain=proxy.local; SameSite=Lax`:
the Domain is the proxy host, the Secure attribute is gone, and the
name and value are unchanged.  (The serializer also materializes the
`lax` default `tough-cookie` applies, which the claim does not
mention and does not contradict.) -/
theorem c4_set_cookie_rewrite :
    handleSetCookieFromUpstreamM ["name=v; Domain=example.com; Secure".toList]
        ("https://example.com".toList) ("http://proxy.local".toList) =
      ["name=v; Domain=proxy.local; SameSite=Lax".toList] ∧
    includesSub ("name=v; Domain=proxy.local; SameSite=Lax".toList)
      ("Domain=proxy.local".toList) = true ∧
    includesSub ("name=v; Domain=proxy.local; SameSite=Lax".toList)
      ("Secure".toList) = false ∧
    ("name=v".toList).isPrefixOf ("name=v; Domain=proxy.local; SameSite=Lax".toList)
      = true := by
  decide

/-! ## Claim C10 -/

/-- C10: a `matchType = 1` ("literal") rule is applied by compiling the
search string as a regex exactly like a `matchType = 2` rule — the two
branches are extensionally identical — so `a.c` replaces `abc` (pattern
semantics, not substring), and an invalid pattern such as a lone `(`
makes the rule a no-op (the `RegExp` constructor throws and the
`catch` skips the rule). -/
theorem c10_literal_rules_compile_as_regex :
    (∀ content searchStr replaceStr : List Char,
        applyRuleM content searchStr replaceStr 1 =
          applyRuleM content searchStr replaceStr 2) ∧
    applyRuleM ("xabcx".toList) ("a.c".toList) ("Z".toList) 1 = "xZx".toList ∧
    applyRuleM ("abc".toList) ("(".toList) ("Z".toList) 1 = "abc".toList := by
  refine ⟨fun content s r => ?_, by decide, by decide⟩
  rw [applyRuleM, applyRuleM]
  cases compileRegexM s <;> simp

/-! ## Retry-loop step lemmas -/

theorem retryLoop_retry_step (maxR : Nat) (cfB sOk : Bool)
    (op : Nat → Bool → AttemptOutcome) (attempt calls fuel : Nat) (e : ErrM)
    (hop : op attempt false = .fail e) (hretry : shouldRetryM e = true)
    (hle : attempt + 1 ≤ maxR) :
    retryLoop maxR cfB sOk op attempt calls (fuel + 1) =
      retryLoop maxR cfB sOk op (attempt + 1) (calls + 1) fuel := by
  rw [retryLoop.eq_def]
  dsimp only
  rw [hop]
  dsimp only
  rw [if_neg]
  simp [hretry]
  omega

theorem retryLoop_success_step (maxR : Nat) (cfB sOk : Bool)
    (op : Nat → Bool → AttemptOutcome) (attempt calls fuel : Nat) (r : RespM)
    (hop : op attempt false = .ok r) (hcf : (cfB && isCloudflareResponseM r) = false) :
    retryLoop maxR cfB sOk op attempt calls (fuel + 1) =
      .succ r attempt (calls + 1) := by
  rw [retryLoop.eq_def]
  dsimp only
  rw [hop]
  dsimp only
  rw [if_neg (by rw [hcf]; exact Bool.false_ne_true)]

theorem retryLoop_final_fail_step (maxR : Nat) (cfB sOk : Bool)
    (op : Nat → Bool → AttemptOutcome) (attempt calls fuel : Nat) (e : ErrM)
    (hop : op attempt false = .fail e)
    (hstop : attempt + 1 > maxR ∨ shouldRetryM e = false) :
    retryLoop maxR cfB sOk op attempt calls (fuel + 1) =
      .failed e (attempt + 1) (calls + 1) := by
  rw [retryLoop.eq_def]
  dsimp only
  rw [hop]
  dsimp only
  rw [if_pos]
  rcases hstop with h | h
  · simp [h]
  · simp [h]

theorem classifyFinal_rawErr (e e2 : ErrM)
    (h : classifyFinal e = FinalErr.rawErr e2) :
    e = e2 ∧ e.errCode ≠ some .enotfound ∧ e.errCode ≠ some .econnrefused ∧
      e.errCode ≠ some .etimedout ∧ e.errCode ≠ some .esockettimedout := by
  rw [classifyFinal.eq_def] at h
  rcases hc : e.errCode with _ | c
  · rw [hc] at h
    dsimp only at h
    injection h with h2
    simp [h2, hc]
  · rw [hc] at h
    cases c <;> dsimp only at h <;> first
      | (injection h with h2; subst h2; simp [hc])
      | cases h

/-! ## Claim C6 -/

/-- C6 counterexample: a transport operation that always fails with
`ECONNRESET` (a retryable transport code) exhausts the retries, and
`executeWithRetry` then rethrows the *raw* transport error — the final
classification switch covers only `ENOTFOUND`, `ECONNREFUSED`,
`ETIMEDOUT` and `ESOCKETTIMEDOUT`, so the caller receives an
unclassified connection-reset exception, contradicting the claim. -/
theorem c6_raw_error_counterexample :
    (executeWithRetryM 3 false false
        (fun _ _ => .fail { errCode := some .econnreset }) { }).1 =
      Except.error (FinalErr.rawErr { errCode := some .econnreset }) := by
  rfl

/-- C6 amended: `executeWithRetry` classifies a final failure if and
only if its transport code is one of `ENOTFOUND`, `ECONNREFUSED`,
`ETIMEDOUT`, `ESOCKETTIMEDOUT`; every raw error a caller can receive
has none of those codes (so reset/broken-pipe/secondary-DNS errors
reach callers raw). -/
theorem c6_classification_amended (maxRetries : Nat) (cfBypass solverOk : Bool)
    (op : Nat → Bool → AttemptOutcome) (stats : StatsM) (e : ErrM)
    (h : (executeWithRetryM maxRetries cfBypass solverOk op stats).1 =
      Except.error (FinalErr.rawErr e)) :
    e.errCode ≠ some .enotfound ∧ e.errCode ≠ some .econnrefused ∧
    e.errCode ≠ some .etimedout ∧ e.errCode ≠ some .esockettimedout := by
  rw [executeWithRetryM] at h
  rcases hl : retryLoop maxRetries cfBypass solverOk op 0 0 (maxRetries + 1) with
    _ | ⟨e2, att, calls⟩
  · rw [hl] at h
    dsimp only at h
    cases h
  · rw [hl] at h
    dsimp only at h
    injection h with h2
    obtain ⟨rfl, hcl⟩ := classifyFinal_rawErr e2 e h2
    exact hcl

/-- C6 witness: the amended statement applied to the always-reset
operation. -/
theorem c6_classification_amended_witness :
    (executeWithRetryM 3 false false
        (fun _ _ => .fail { errCode := some .econnreset }) { }).1 =
      Except.error (FinalErr.rawErr { errCode := some .econnreset }) ∧
    (({ errCode := some .econnreset : ErrM }).errCode ≠ some .enotfound ∧
     ({ errCode := some .econnreset : ErrM }).errCode ≠ some .econnrefused ∧
     ({ errCode := some .econnreset : ErrM }).errCode ≠ some .etimedout ∧
     ({ errCode := some .econnreset : ErrM }).errCode ≠ some .esockettimedout) :=
  ⟨by rfl,
    c6_classification_amended 3 false false
      (fun _ _ => .fail { errCode := some .econnreset }) { }
      { errCode := some .econnreset } (by rfl)⟩

/-! ## Claim C7 -/

/-- C7: with any `maxRetries ≥ 2` (the deployed default is 3), an
operation failing twice with `ECONNRESET` and then succeeding with a
non-challenge response makes `executeWithRetry` return that response
after exactly three operation calls, incrementing `retriedRequests` by
1 and `totalRetries` by 2; and an operation failing with a
non-retryable axios 404 response error makes it fail after exactly one
attempt with no retry (counters unchanged except `failedRequests`). -/
theorem c7_retry_counters (k : Nat) (r : RespM) (stats : StatsM)
    (hcf : isCloudflareResponseM r = false) :
    executeWithRetryM (k + 2) true false
        (fun n _ => if n < 2 then .fail { errCode := some .econnreset } else .ok r)
        stats =
      (Except.ok r,
       { stats with
          totalRequests := stats.totalRequests + 1
          successfulRequests := stats.successfulRequests + 1
          retriedRequests := stats.retriedRequests + 1
          totalRetries := stats.totalRetries + 2 }, 3) ∧
    executeWithRetryM (k + 2) true false
        (fun _ _ => .fail { respStatus := some 404, isAxiosErr := true }) stats =
      (Except.error (FinalErr.rawErr { respStatus := some 404, isAxiosErr := true }),
       { stats with
          totalRequests := stats.totalRequests + 1
          failedRequests := stats.failedRequests + 1 }, 1) := by
  constructor
  · rw [executeWithRetryM]
    rw [show k + 2 + 1 = k + 1 + 1 + 1 by omega]
    have h0 : (fun n (_ : Bool) =>
        if n < 2 then AttemptOutcome.fail { errCode := some ErrCode.econnreset }
        else AttemptOutcome.ok r) 0 false =
        AttemptOutcome.fail { errCode := some ErrCode.econnreset } := rfl
    have h1 : (fun n (_ : Bool) =>
        if n < 2 then AttemptOutcome.fail { errCode := some ErrCode.econnreset }
        else AttemptOutcome.ok r) (0 + 1) false =
        AttemptOutcome.fail { errCode := some ErrCode.econnreset } := rfl
    have h2 : (fun n (_ : Bool) =>
        if n < 2 then AttemptOutcome.fail { errCode := some ErrCode.econnreset }
        else AttemptOutcome.ok r) (0 + 1 + 1) false = AttemptOutcome.ok r := rfl
    rw [retryLoop_retry_step _ _ _ _ _ _ _ _ h0 (by decide) (by omega)]
    rw [retryLoop_retry_step _ _ _ _ _ _ _ _ h1 (by decide) (by omega)]
    rw [retryLoop_success_step _ _ _ _ _ _ _ _ h2 (by rw [Bool.true_and, hcf])]
    dsimp only
    norm_num
  · rw [executeWithRetryM]
    rw [show k + 2 + 1 = k + 1 + 1 + 1 by omega]
    have h0 : (fun (_ : Nat) (_ : Bool) =>
        AttemptOutcome.fail { respStatus := some 404, isAxiosErr := true }) 0 false =
        AttemptOutcome.fail { respStatus := some 404, isAxiosErr := true } := rfl
    rw [retryLoop_final_fail_step _ _ _ _ _ _ _ _ h0 (Or.inr (by decide))]
    dsimp only
    norm_num
    rfl

/-- C7 witness: the counter behaviour at `maxRetries = 3` with a plain
200 response and zeroed counters. -/
theorem c7_retry_counters_witness :
    isCloudflareResponseM { status := 200 } = false ∧
    (executeWithRetryM 3 true false
        (fun n _ => if n < 2 then .fail { errCode := some .econnreset }
                    else .ok { status := 200 }) { } =
      (Except.ok { status := 200 },
       { totalRequests := 1, successfulRequests := 1, failedRequests := 0,
         retriedRequests := 1, totalRetries := 2 }, 3) ∧
     executeWithRetryM 3 true false
        (fun _ _ => .fail { respStatus := some 404, isAxiosErr := true }) { } =
      (Except.error (FinalErr.rawErr { respStatus := some 404, isAxiosErr := true }),
       { totalRequests := 1, successfulRequests := 0, failedRequests := 1,
         retriedRequests := 0, totalRetries := 0 }, 1)) :=
  ⟨by decide, c7_retry_counters 1 { status := 200 } { } (by decide)⟩

/-! ## Claim C3 -/

/-- C3: in global mode, a request whose decoded target URL fails
validation is rejected with a 400 response during request conversion —
`extractTargetSiteFromProxyUrl` throws `InvalidUrlError` before
`proxyHandler`, and hence before `connectionManager.executeWithRetry`,
is ever invoked, so the transport operation runs zero times. -/
theorem c3_invalid_target_no_upstream_call (requestUrl g : List Char)
    (pre : List (ReqM → ReqM)) (deny : List (ReqM → Bool)) (maxR : Nat)
    (cfB sOk : Bool) (op : Nat → Bool → AttemptOutcome)
    (hparts : 2 ≤ (splitOnSub ('/' :: g ++ ['/']) requestUrl).length)
    (hbad : isValidUrl (safeBase64Decode
        ((splitOnSub ('/' :: g ++ ['/']) requestUrl)[1]!)) = false) :
    handleGlobalM requestUrl g pre deny maxR cfB sOk op =
      { status := 400, opCalls := 0 } := by
  rw [handleGlobalM, extractTargetSiteM]
  dsimp only
  rw [if_neg (by omega)]
  rw [hbad]
  simp

/-- C3 witness: the segment `AAAA` decodes to three NUL bytes, which is
not a valid URL, so the request makes no upstream call. -/
theorem c3_invalid_target_no_upstream_call_witness :
    2 ≤ (splitOnSub ('/' :: "gp".toList ++ ['/']) "/gp/AAAA".toList).length ∧
    isValidUrl (safeBase64Decode
        ((splitOnSub ('/' :: "gp".toList ++ ['/']) "/gp/AAAA".toList)[1]!)) = false ∧
    handleGlobalM "/gp/AAAA".toList "gp".toList [] [] 3 true false
        (fun _ _ => .ok { status := 200 }) = { status := 400, opCalls := 0 } :=
  ⟨by decide, by decide,
    c3_invalid_target_no_upstream_call "/gp/AAAA".toList "gp".toList [] [] 3
      true false (fun _ _ => .ok { status := 200 }) (by decide) (by decide)⟩

/-! ## Claim C8 -/

/-- C8: when the (pre-handler-processed) request path matches a
configured deny-list pattern, `proxyHandler` throws `ACCESS_DENIED`
before `connectionManager.executeWithRetry` is reached: the client gets
a 403 response and the transport operation runs zero times. -/
theorem c8_deny_list_blocks_before_transport (pre : List (ReqM → ReqM))
    (deny : List (ReqM → Bool)) (maxR : Nat) (cfB sOk : Bool)
    (op : Nat → Bool → AttemptOutcome) (req : ReqM)
    (hdeny : deny.any (fun p => p (pre.foldl (fun r h => h r) req)) = true) :
    proxyHandlerM pre deny maxR cfB sOk op req =
      { status := 403, opCalls := 0 } := by
  rw [proxyHandlerM]
  rw [if_pos hdeny]

/-- C8 witness: a deny pattern for `/admin` blocks the request
`/admin/x` with 403 and zero transport calls. -/
theorem c8_deny_list_blocks_before_transport_witness :
    [fun r : ReqM => ("/admin".toList).isPrefixOf r.urlNoSite].any
      (fun p => p (([] : List (ReqM → ReqM)).foldl (fun r h => h r)
        { urlNoSite := "/admin/x".toList })) = true ∧
    proxyHandlerM [] [fun r : ReqM => ("/admin".toList).isPrefixOf r.urlNoSite]
        3 true false (fun _ _ => .ok { status := 200 })
        { urlNoSite := "/admin/x".toList } =
      { status := 403, opCalls := 0 } :=
  ⟨by decide,
    c8_deny_list_blocks_before_transport []
      [fun r : ReqM => ("/admin".toList).isPrefixOf r.urlNoSite] 3 true false
      (fun _ _ => .ok { status := 200 }) { urlNoSite := "/admin/x".toList }
      (by decide)⟩

/-! ## Claim C9 -/

/-- C9 counterexample: Node's base64 decoder is lenient and never
fails, so the claimed fallback ("if base64 decoding fails, treat the
segment as a percent-encoded URL") never runs: for the legacy segment
`https%3A%2F%2Fexample.com`, plain `decodeURIComponent` would yield
`https://example.com` (second conjunct — what the claimed fallback
would produce), but `safeBase64Decode` instead lenient-decodes it to
mojibake (first conjunct), and the conversion rejects the request with
`InvalidTargetUrl` (third conjunct) instead of proxying to
`example.com`. -/
theorem c9_percent_fallback_counterexample :
    safeBase64Decode ("https%3A%2F%2Fexample.com".toList) ≠
      "https://example.com".toList ∧
    decodeURIComponentJs ("https%3A%2F%2Fexample.com".toList) =
      some ("https://example.com".toList) ∧
    requestProxyConvertM ("/gp/https%3A%2F%2Fexample.com".toList) ("gp".toList) =
      Except.error ConvErr.invalidUrl := by
  refine ⟨by decide, by decide, by rfl⟩

/-- C9 amended: `safeBase64Decode` is total (lenient base64, then
`decodeURIComponent` with a fall-through to the undecoded string), so
segment decoding never fails outright; a segment whose decode fails URL
validation — which is what actually happens to malformed or legacy
percent-encoded segments — makes `requestProxyConvert` throw
`InvalidUrlError`, whose status is 400, and nothing else. -/
theorem c9_invalid_segment_amended (requestUrl g : List Char)
    (hparts : 2 ≤ (splitOnSub ('/' :: g ++ ['/']) requestUrl).length)
    (hbad : isValidUrl (safeBase64Decode
        ((splitOnSub ('/' :: g ++ ['/']) requestUrl)[1]!)) = false) :
    requestProxyConvertM requestUrl g = Except.error ConvErr.invalidUrl ∧
    convErrStatus ConvErr.invalidUrl = 400 := by
  constructor
  · rw [requestProxyConvertM]
    dsimp only
    rw [if_neg (by omega)]
    rw [hbad]
    simp
  · rfl

/-- C9 witness: the amended statement at the legacy percent-encoded
segment. -/
theorem c9_invalid_segment_amended_witness :
    2 ≤ (splitOnSub ('/' :: "gp".toList ++ ['/'])
      "/gp/https%3A%2F%2Fexample.com".toList).length ∧
    isValidUrl (safeBase64Decode ((splitOnSub ('/' :: "gp".toList ++ ['/'])
      "/gp/https%3A%2F%2Fexample.com".toList)[1]!)) = false ∧
    (requestProxyConvertM "/gp/https%3A%2F%2Fexample.com".toList "gp".toList =
      Except.error ConvErr.invalidUrl ∧
     convErrStatus ConvErr.invalidUrl = 400) :=
  ⟨by decide, by decide,
    c9_invalid_segment_amended "/gp/https%3A%2F%2Fexample.com".toList "gp".toList
      (by decide) (by decide)⟩

/-! ## Matching and scanning lemmas for the rewrite engine -/

theorem rmatchesAt_nil_left (s : List Char) : rmatchesAt [] s = true := by
  cases s <;> rfl

theorem rmatchesAt_cons_iff (t : RTok) (ts : List RTok) (c : Char) (cs : List Char) :
    rmatchesAt (t :: ts) (c :: cs) = true ↔
      rtokMatches t c = true ∧ rmatchesAt ts cs = true := by
  simp [rmatchesAt]

theorem rmatchesAt_length_le (re : List RTok) (s : List Char)
    (h : rmatchesAt re s = true) : re.length ≤ s.length := by
  induction re generalizing s with
  | nil => simp
  | cons t ts ih =>
    match s with
    | [] => exact absurd h (by simp [rmatchesAt])
    | c :: cs =>
      have := (rmatchesAt_cons_iff t ts c cs).mp h
      have := ih cs this.2
      simp only [List.length_cons]
      omega

theorem agreesPre_nil_left (s : List Char) : agreesPre [] s = true := rfl

theorem agreesPre_nil_right (re : List RTok) : agreesPre re [] = true := by
  cases re <;> rfl

theorem agreesPre_cons_iff (t : RTok) (ts : List RTok) (c : Char) (cs : List Char) :
    agreesPre (t :: ts) (c :: cs) = true ↔
      rtokMatches t c = true ∧ agreesPre ts cs = true := by
  simp [agreesPre]

theorem agreesPre_of_rmatchesAt (re : List RTok) (s : List Char)
    (h : rmatchesAt re s = true) : agreesPre re s = true := by
  induction re generalizing s with
  | nil => exact agreesPre_nil_left s
  | cons t ts ih =>
    match s with
    | [] => exact absurd h (by simp [rmatchesAt])
    | c :: cs =>
      have h2 := (rmatchesAt_cons_iff t ts c cs).mp h
      exact (agreesPre_cons_iff t ts c cs).mpr ⟨h2.1, ih cs h2.2⟩

theorem agreesPre_append_left (re : List RTok) (x y : List Char)
    (h : agreesPre re (x ++ y) = true) : agreesPre re x = true := by
  induction re generalizing x with
  | nil => exact agreesPre_nil_left x
  | cons t ts ih =>
    match x with
    | [] => exact agreesPre_nil_right (t :: ts)
    | c :: cs =>
      rw [List.cons_append] at h
      have h2 := (agreesPre_cons_iff t ts c (cs ++ y)).mp h
      exact (agreesPre_cons_iff t ts c cs).mpr ⟨h2.1, ih cs h2.2⟩

theorem rmatchesAt_append_agreesPre (re : List RTok) (x y : List Char)
    (h : rmatchesAt re (x ++ y) = true) : agreesPre re x = true :=
  agreesPre_append_left re x y (agreesPre_of_rmatchesAt re (x ++ y) h)

theorem rmatchesAt_append_left_of_le (re : List RTok) (x y z : List Char)
    (hlen : re.length ≤ x.length) :
    rmatchesAt re (x ++ y) = rmatchesAt re (x ++ z) := by
  induction re generalizing x with
  | nil => rw [rmatchesAt_nil_left, rmatchesAt_nil_left]
  | cons t ts ih =>
    match x with
    | [] => simp at hlen
    | c :: cs =>
      rw [List.cons_append, List.cons_append]
      show (rtokMatches t c && rmatchesAt ts (cs ++ y)) =
        (rtokMatches t c && rmatchesAt ts (cs ++ z))
      rw [ih cs (by simp only [List.length_cons] at hlen; omega)]

theorem rmatchesAt_append_split (re : List RTok) (x y : List Char)
    (h : rmatchesAt re (x ++ y) = true) (hlen : x.length < re.length) :
    rmatchesAt (re.drop x.length) y = true := by
  induction x generalizing re with
  | nil => simpa using h
  | cons c cs ih =>
    match re with
    | [] => simp at hlen
    | t :: ts =>
      rw [List.cons_append] at h
      have h2 := (rmatchesAt_cons_iff t ts c (cs ++ y)).mp h
      have := ih ts h2.2 (by simp only [List.length_cons] at hlen; omega)
      simpa using this

theorem rmatchesAt_append_join (re : List RTok) (x y : List Char)
    (hagree : agreesPre re x = true) (hlen : x.length ≤ re.length)
    (hrest : rmatchesAt (re.drop x.length) y = true) :
    rmatchesAt re (x ++ y) = true := by
  induction x generalizing re with
  | nil => simpa using hrest
  | cons c cs ih =>
    match re with
    | [] => simp at hlen
    | t :: ts =>
      have h2 := (agreesPre_cons_iff t ts c cs).mp hagree
      rw [List.cons_append]
      refine (rmatchesAt_cons_iff t ts c (cs ++ y)).mpr ⟨h2.1, ?_⟩
      exact ih ts h2.2 (by simp only [List.length_cons] at hlen; omega)
        (by simpa using hrest)

theorem rmatchesAt_litToks (w s : List Char) :
    rmatchesAt (litToks w) s = w.isPrefixOf s := by
  induction w generalizing s with
  | nil => rw [litToks]; simp [rmatchesAt_nil_left, List.isPrefixOf]
  | cons c cs ih =>
    match s with
    | [] => simp [litToks, rmatchesAt, List.isPrefixOf]
    | d :: ds =>
      show rmatchesAt (RTok.lit c :: litToks cs) (d :: ds) = _
      show (rtokMatches (RTok.lit c) d && rmatchesAt (litToks cs) ds) = _
      rw [ih ds]
      show (decide (d = c) && cs.isPrefixOf ds) = (c :: cs).isPrefixOf (d :: ds)
      simp [List.isPrefixOf, BEq.beq, eq_comm]

/-- `noMatchAll` in its induction-friendly form. -/
theorem noMatchAll_cons_iff (re : List RTok) (c : Char) (rest : List Char) :
    noMatchAll re (c :: rest) ↔
      rmatchesAt re (c :: rest) = false ∧ noMatchAll re rest := by
  constructor
  · intro h
    exact ⟨h (c :: rest) (List.suffix_refl _),
      fun t ht => h t (ht.trans (List.suffix_cons c rest))⟩
  · rintro ⟨h1, h2⟩ t ht
    rcases List.suffix_cons_iff.mp ht with rfl | ht2
    · exact h1
    · exact h2 t ht2

theorem noMatchAll_nil (re : List RTok) (hre : re ≠ []) : noMatchAll re [] := by
  intro t ht
  rw [List.suffix_nil.mp ht]
  match re with
  | [] => exact absurd rfl hre
  | t2 :: ts => rfl

theorem noMatchAll_suffix (re : List RTok) (s t : List Char)
    (h : noMatchAll re s) (hst : t <:+ s) : noMatchAll re t :=
  fun u hu => h u (hu.trans hst)

/-- Splitting suffixes of an append. -/
theorem suffix_append_cases (t x y : List Char) (h : t <:+ x ++ y) :
    t <:+ y ∨ ∃ i, i < x.length ∧ t = x.drop i ++ y := by
  induction x with
  | nil => exact Or.inl (by simpa using h)
  | cons c cs ih =>
    rw [List.cons_append] at h
    rcases List.suffix_cons_iff.mp h with rfl | h2
    · exact Or.inr ⟨0, by simp⟩
    · rcases ih h2 with h3 | ⟨i, hi, rfl⟩
      · exact Or.inl h3
      · exact Or.inr ⟨i + 1, by simp only [List.length_cons]; omega, by simp⟩

/-- Avoidance transfers across an append whose left block is everywhere
incompatible with the pattern. -/
theorem noMatchAll_append (re : List RTok) (x y : List Char)
    (hx : ∀ i, i < x.length → agreesPre re (x.drop i) = false)
    (hy : noMatchAll re y) : noMatchAll re (x ++ y) := by
  intro t ht
  rcases suffix_append_cases t x y ht with h2 | ⟨i, hi, rfl⟩
  · exact hy t h2
  · by_contra hmatch
    rw [Bool.not_eq_false] at hmatch
    have := rmatchesAt_append_agreesPre re (x.drop i) y hmatch
    rw [hx i hi] at this
    cases this

theorem drop_one_drop (re : List RTok) (d : Nat) (t : RTok) (ts : List RTok)
    (h : re.drop d = t :: ts) : re.drop (d + 1) = ts := by
  have h2 : (re.drop d).drop 1 = re.drop (d + 1) := by
    rw [List.drop_drop, Nat.add_comm]
  rw [← h2, h]
  rfl

theorem drop_ne_nil_lt (re : List RTok) (d : Nat) (t : RTok) (ts : List RTok)
    (h : re.drop d = t :: ts) : d < re.length := by
  by_contra h2
  rw [List.drop_eq_nil_of_le (by omega)] at h
  cases h

/-! Generic lemmas about the `scanReplaceF` scanner, parametric in the
matcher and replacement, with decidable side conditions relating them
to a target pattern `re`. -/

theorem scanReplaceF_pullback (matchLen : List Char → Option Nat) (rep : List Char)
    (re : List RTok)
    (Hpos : ∀ s k, matchLen s = some k → 1 ≤ k ∧ k ≤ s.length)
    (Hsuffix : ∀ d, d < re.length → 1 ≤ d → agreesPre (re.drop d) rep = false) :
    ∀ fuel s d, 1 ≤ d →
      rmatchesAt (re.drop d) (scanReplaceF matchLen rep fuel s) = true →
      rmatchesAt (re.drop d) s = true := by
  intro fuel
  induction fuel with
  | zero =>
    intro s d hd h
    match s with
    | [] =>
      rcases hred : re.drop d with _ | ⟨t, ts⟩
      · exact rmatchesAt_nil_left []
      · rw [scanReplaceF.eq_def] at h
        dsimp only at h
        rcases hm : matchLen [] with _ | k
        · rw [hm] at h
          dsimp only at h
          rw [hred] at h
          exact absurd h (by simp [rmatchesAt])
        · have := Hpos [] k hm
          simp at this
          omega
    | c :: rest => exact h
  | succ fuel ih =>
    intro s d hd h
    match s with
    | [] =>
      rcases hred : re.drop d with _ | ⟨t, ts⟩
      · exact rmatchesAt_nil_left []
      · rw [scanReplaceF.eq_def] at h
        dsimp only at h
        rcases hm : matchLen [] with _ | k
        · rw [hm] at h
          dsimp only at h
          rw [hred] at h
          exact absurd h (by simp [rmatchesAt])
        · have := Hpos [] k hm
          simp at this
          omega
    | c :: rest =>
      rcases hred : re.drop d with _ | ⟨t, ts⟩
      · exact rmatchesAt_nil_left _
      · rw [scanReplaceF.eq_def] at h
        dsimp only at h
        rcases hm : matchLen (c :: rest) with _ | k
        · rw [hm] at h
          dsimp only at h
          rw [hred] at h
          have h2 := (rmatchesAt_cons_iff t ts c _).mp h
          have hts : re.drop (d + 1) = ts := drop_one_drop re d t ts hred
          have hpull := ih rest (d + 1) (by omega) (by rw [hts]; exact h2.2)
          rw [hts] at hpull
          exact (rmatchesAt_cons_iff t ts c rest).mpr ⟨h2.1, hpull⟩
        · rw [hm] at h
          match k with
          | 0 =>
            have := Hpos (c :: rest) 0 hm
            omega
          | k + 1 =>
            dsimp only at h
            rw [hred] at h
            have hag : agreesPre (t :: ts) rep = true :=
              rmatchesAt_append_agreesPre (t :: ts) rep _ h
            have hdlt : d < re.length := drop_ne_nil_lt re d t ts hred
            have := Hsuffix d hdlt hd
            rw [hred] at this
            rw [this] at hag
            cases hag

theorem scanReplaceF_preserve (matchLen : List Char → Option Nat) (rep : List Char)
    (re : List RTok) (hre : re ≠ [])
    (Hpos : ∀ s k, matchLen s = some k → 1 ≤ k ∧ k ≤ s.length)
    (Hinside : ∀ i, i < rep.length → agreesPre re (rep.drop i) = false)
    (Hsuffix : ∀ d, d < re.length → 1 ≤ d → agreesPre (re.drop d) rep = false) :
    ∀ fuel s, noMatchAll re s →
      noMatchAll re (scanReplaceF matchLen rep fuel s) := by
  intro fuel
  induction fuel with
  | zero =>
    intro s hs
    match s with
    | [] =>
      rw [scanReplaceF.eq_def]
      dsimp only
      rcases hm : matchLen [] with _ | k
      · exact noMatchAll_nil re hre
      · have := Hpos [] k hm
        simp at this
        omega
    | c :: rest => exact hs
  | succ fuel ih =>
    intro s hs
    match s with
    | [] =>
      rw [scanReplaceF.eq_def]
      dsimp only
      rcases hm : matchLen [] with _ | k
      · exact noMatchAll_nil re hre
      · have := Hpos [] k hm
        simp at this
        omega
    | c :: rest =>
      rw [scanReplaceF.eq_def]
      dsimp only
      rcases hm : matchLen (c :: rest) with _ | k
      · have hrest : noMatchAll re rest :=
          noMatchAll_suffix re (c :: rest) rest hs (List.suffix_cons c rest)
        refine (noMatchAll_cons_iff re c _).mpr ⟨?_, ih rest hrest⟩
        by_contra hmatch
        rw [Bool.not_eq_false] at hmatch
        obtain ⟨t, ts, hre2⟩ : ∃ t ts, re = t :: ts := by
          cases re with
          | nil => exact absurd rfl hre
          | cons a as => exact ⟨a, as, rfl⟩
        rw [hre2] at hmatch
        have h2 := (rmatchesAt_cons_iff t ts c _).mp hmatch
        have hts : re.drop 1 = ts := by rw [hre2]; rfl
        have hpull := scanReplaceF_pullback matchLen rep re Hpos Hsuffix fuel rest 1
          (le_refl 1) (by rw [hts]; exact h2.2)
        rw [hts] at hpull
        have hfull : rmatchesAt re (c :: rest) = true := by
          rw [hre2]
          exact (rmatchesAt_cons_iff t ts c rest).mpr ⟨h2.1, hpull⟩
        have hcontra := hs (c :: rest) (List.suffix_refl _)
        rw [hfull] at hcontra
        cases hcontra
      · match k with
        | 0 =>
          have := Hpos (c :: rest) 0 hm
          omega
        | k + 1 =>
          dsimp only
          refine noMatchAll_append re rep _ Hinside (ih _ ?_)
          exact noMatchAll_suffix re (c :: rest) _ hs
            ((List.drop_suffix k rest).trans (List.suffix_cons c rest))

theorem scanReplaceF_self_avoid (matchLen : List Char → Option Nat) (rep : List Char)
    (re : List RTok) (hre : re ≠ [])
    (Hpos : ∀ s k, matchLen s = some k → 1 ≤ k ∧ k ≤ s.length)
    (Hinside : ∀ i, i < rep.length → agreesPre re (rep.drop i) = false)
    (Hsuffix : ∀ d, d < re.length → 1 ≤ d → agreesPre (re.drop d) rep = false)
    (Hnone : ∀ s, matchLen s = none → rmatchesAt re s = false) :
    ∀ fuel s, s.length ≤ fuel →
      noMatchAll re (scanReplaceF matchLen rep fuel s) := by
  intro fuel
  induction fuel with
  | zero =>
    intro s hfuel
    match s with
    | [] =>
      rw [scanReplaceF.eq_def]
      dsimp only
      rcases hm : matchLen [] with _ | k
      · exact noMatchAll_nil re hre
      · have := Hpos [] k hm
        simp at this
        omega
    | c :: rest => simp at hfuel
  | succ fuel ih =>
    intro s hfuel
    match s with
    | [] =>
      rw [scanReplaceF.eq_def]
      dsimp only
      rcases hm : matchLen [] with _ | k
      · exact noMatchAll_nil re hre
      · have := Hpos [] k hm
        simp at this
        omega
    | c :: rest =>
      have hlen : rest.length ≤ fuel := by
        simp only [List.length_cons] at hfuel
        omega
      rw [scanReplaceF.eq_def]
      dsimp only
      rcases hm : matchLen (c :: rest) with _ | k
      · refine (noMatchAll_cons_iff re c _).mpr ⟨?_, ih rest hlen⟩
        by_contra hmatch
        rw [Bool.not_eq_false] at hmatch
        obtain ⟨t, ts, hre2⟩ : ∃ t ts, re = t :: ts := by
          cases re with
          | nil => exact absurd rfl hre
          | cons a as => exact ⟨a, as, rfl⟩
        rw [hre2] at hmatch
        have h2 := (rmatchesAt_cons_iff t ts c _).mp hmatch
        have hts : re.drop 1 = ts := by rw [hre2]; rfl
        have hpull := scanReplaceF_pullback matchLen rep re Hpos Hsuffix fuel rest 1
          (le_refl 1) (by rw [hts]; exact h2.2)
        rw [hts] at hpull
        have hfull : rmatchesAt re (c :: rest) = true := by
          rw [hre2]
          exact (rmatchesAt_cons_iff t ts c rest).mpr ⟨h2.1, hpull⟩
        rw [Hnone (c :: rest) hm] at hfull
        cases hfull
      · match k with
        | 0 =>
          have := Hpos (c :: rest) 0 hm
          omega
        | k + 1 =>
          dsimp only
          refine noMatchAll_append re rep _ Hinside (ih _ ?_)
          have hdl : (List.drop k rest).length = rest.length - k := by
            rw [List.length_drop]
          omega

theorem scanReplaceF_id (matchLen : List Char → Option Nat) (rep : List Char) :
    ∀ fuel s, (∀ t, t <:+ s → matchLen t = none) →
      scanReplaceF matchLen rep fuel s = s := by
  intro fuel
  induction fuel with
  | zero =>
    intro s hs
    match s with
    | [] =>
      rw [scanReplaceF.eq_def]
      dsimp only
      rw [hs [] (List.suffix_refl _)]
    | c :: rest => rfl
  | succ fuel ih =>
    intro s hs
    match s with
    | [] =>
      rw [scanReplaceF.eq_def]
      dsimp only
      rw [hs [] (List.suffix_refl _)]
    | c :: rest =>
      rw [scanReplaceF.eq_def]
      dsimp only
      rw [hs (c :: rest) (List.suffix_refl _)]
      dsimp only
      rw [ih rest (fun t ht => hs t (ht.trans (List.suffix_cons c rest)))]

theorem regexReplaceF_eq_scan (re : List RTok) (hre : re ≠ []) (rep : List Char) :
    ∀ fuel s,
      regexReplaceF re rep fuel s =
        scanReplaceF (fun t => if rmatchesAt re t then some re.length else none)
          rep fuel s := by
  intro fuel
  induction fuel with
  | zero =>
    intro s
    match s with
    | [] =>
      rw [regexReplaceF.eq_def, scanReplaceF.eq_def]
      dsimp only
      have : rmatchesAt re [] = false := by
        match re with
        | [] => exact absurd rfl hre
        | t :: ts => rfl
      rw [this]
      rfl
    | c :: rest => rfl
  | succ fuel ih =>
    intro s
    match s with
    | [] =>
      rw [regexReplaceF.eq_def, scanReplaceF.eq_def]
      dsimp only
      have : rmatchesAt re [] = false := by
        match re with
        | [] => exact absurd rfl hre
        | t :: ts => rfl
      rw [this]
      rfl
    | c :: rest =>
      rw [regexReplaceF.eq_def, scanReplaceF.eq_def]
      dsimp only
      rcases hmatch : rmatchesAt re (c :: rest) with _ | _
      · rw [ih rest]
        rfl
      · have hlen : re.length ≠ 0 := by
          match re with
          | [] => exact absurd rfl hre
          | t :: ts => simp
        rw [if_neg hlen]
        obtain ⟨k, hre2⟩ : ∃ k, re.length = k + 1 := by
          cases h : re.length with
          | zero => exact absurd h hlen
          | succ k => exact ⟨k, rfl⟩
        rw [ih, hre2]
        rfl

/-! List helper lemmas used by the step-3 analysis. -/

theorem drop_append_le {α : Type} : ∀ (x y : List α) (i : Nat), i ≤ x.length →
    (x ++ y).drop i = x.drop i ++ y := by
  intro x
  induction x with
  | nil =>
    intro y i hi
    have : i = 0 := by simpa using hi
    subst this
    rfl
  | cons c cs ih =>
    intro y i hi
    match i with
    | 0 => rfl
    | i + 1 =>
      simp only [List.cons_append, List.drop_succ_cons]
      exact ih y i (by simpa using hi)

theorem drop_append_ge {α : Type} : ∀ (x y : List α) (i : Nat), x.length ≤ i →
    (x ++ y).drop i = y.drop (i - x.length) := by
  intro x
  induction x with
  | nil =>
    intro y i _
    simp
  | cons c cs ih =>
    intro y i hi
    match i with
    | 0 => simp at hi
    | i + 1 =>
      simp only [List.cons_append, List.drop_succ_cons, List.length_cons]
      rw [ih y i (by simpa using hi)]
      have : i + 1 - (cs.length + 1) = i - cs.length := by omega
      rw [this]

theorem mem_drop_subset {α : Type} : ∀ (n : Nat) (l : List α) (a : α), a ∈ l.drop n → a ∈ l := by
  intro n
  induction n with
  | zero =>
    intro l a h
    simpa using h
  | succ n ih =>
    intro l a h
    match l with
    | [] => simp at h
    | c :: cs => exact List.mem_cons_of_mem c (ih cs a h)

theorem suffix_append_right {α : Type} (t m z : List α) (h : t <:+ m) : t ++ z <:+ m ++ z := by
  obtain ⟨u, hu⟩ := h
  exact ⟨u, by rw [← hu, List.append_assoc]⟩

theorem isPrefixOf_eq_append : ∀ (x s : List Char), x.isPrefixOf s = true →
    s = x ++ s.drop x.length := by
  intro x
  induction x with
  | nil =>
    intro s _
    simp
  | cons c cs ih =>
    intro s h
    match s with
    | [] => exact absurd h (by simp [List.isPrefixOf])
    | d :: ds =>
      simp only [List.isPrefixOf, Bool.and_eq_true, beq_iff_eq] at h
      obtain ⟨hcd, h2⟩ := h
      subst hcd
      simp only [List.cons_append, List.length_cons, List.drop_succ_cons]
      exact congrArg (c :: ·) (ih ds h2)

theorem isPrefixOf_append_self : ∀ (x t : List Char), x.isPrefixOf (x ++ t) = true := by
  intro x t
  induction x with
  | nil => simp [List.isPrefixOf]
  | cons c cs ih => simp [List.isPrefixOf, ih]

theorem isPrefixOf_length_le : ∀ (x s : List Char), x.isPrefixOf s = true →
    x.length ≤ s.length := by
  intro x
  induction x with
  | nil =>
    intro s _
    simp
  | cons c cs ih =>
    intro s h
    match s with
    | [] => exact absurd h (by simp [List.isPrefixOf])
    | d :: ds =>
      simp only [List.isPrefixOf, Bool.and_eq_true] at h
      simp only [List.length_cons]
      exact Nat.succ_le_succ (ih ds h.2)

theorem isPrefixOf_append_split : ∀ (x y l : List Char),
    (x ++ y).isPrefixOf l = (x.isPrefixOf l && y.isPrefixOf (l.drop x.length)) := by
  intro x
  induction x with
  | nil =>
    intro y l
    simp [List.isPrefixOf]
  | cons c cs ih =>
    intro y l
    match l with
    | [] => simp [List.isPrefixOf]
    | d :: ds =>
      simp only [List.cons_append, List.isPrefixOf, List.length_cons, List.drop_succ_cons,
        List.append_eq]
      rw [ih y ds]
      cases (c == d) <;> simp

theorem takeWhile_append_of_all (p : Char → Bool) : ∀ (x z : List Char),
    (∀ e ∈ x, p e = true) → (x ++ z).takeWhile p = x ++ z.takeWhile p := by
  intro x
  induction x with
  | nil =>
    intro z _
    rfl
  | cons c cs ih =>
    intro z hx
    have hc : p c = true := hx c (by simp)
    simp only [List.cons_append, List.takeWhile_cons, hc, if_true]
    rw [ih z (fun e he => hx e (by simp [he]))]

theorem takeWhile_nil_headBreaker : ∀ (l : List Char),
    l.takeWhile allowedUrlChar = [] → headBreaker l = true := by
  intro l h
  match l with
  | [] => rfl
  | b :: rest =>
    rw [List.takeWhile_cons] at h
    by_cases hb : allowedUrlChar b = true
    · rw [hb] at h
      simp at h
    · have hb2 : allowedUrlChar b = false := by
        revert hb
        cases (allowedUrlChar b) <;> simp
      simp [headBreaker, hb2]

theorem headBreaker_takeWhile_nil : ∀ (l : List Char),
    headBreaker l = true → l.takeWhile allowedUrlChar = [] := by
  intro l h
  match l with
  | [] => rfl
  | b :: rest =>
    rw [headBreaker] at h
    have hb2 : allowedUrlChar b = false := by
      revert h
      cases (allowedUrlChar b) <;> simp
    rw [List.takeWhile_cons, hb2]
    rfl

theorem drop_length_takeWhile (p : Char → Bool) : ∀ (l : List Char),
    l.drop (l.takeWhile p).length = l.dropWhile p := by
  intro l
  induction l with
  | nil => rfl
  | cons c cs ih =>
    rw [List.takeWhile_cons, List.dropWhile_cons]
    by_cases hc : p c = true
    · rw [hc]
      simp only [if_true, List.length_cons, List.drop_succ_cons]
      exact ih
    · have hc2 : p c = false := by
        revert hc
        cases (p c) <;> simp
      rw [hc2]
      simp

theorem headBreaker_dropWhile : ∀ (l : List Char),
    headBreaker (l.dropWhile allowedUrlChar) = true := by
  intro l
  induction l with
  | nil => rfl
  | cons c cs ih =>
    rw [List.dropWhile_cons]
    by_cases hc : allowedUrlChar c = true
    · rw [hc]
      simpa using ih
    · have hc2 : allowedUrlChar c = false := by
        revert hc
        cases (allowedUrlChar c) <;> simp
      rw [hc2]
      simp [headBreaker, hc2]

/-! Characters of `safeBase64Encode` output. -/

theorem code_lt_char (c : Char) : code c < 1114112 := by
  rcases c.valid with h | h
  · exact Nat.lt_trans h (by norm_num)
  · exact h.2

theorem utf8Encode_lt_256 (n : Nat) (hn : n < 1114112) : ∀ b ∈ utf8Encode n, b < 256 := by
  intro b hb
  rw [utf8Encode] at hb
  split_ifs at hb with h1 h2 h3
  · simp at hb
    omega
  · simp at hb
    rcases hb with rfl | rfl <;> omega
  · simp at hb
    rcases hb with rfl | rfl | rfl <;> omega
  · simp at hb
    rcases hb with rfl | rfl | rfl | rfl <;> omega

theorem bufferFromUtf8_lt_256 (s : List Char) : ∀ b ∈ bufferFromUtf8 s, b < 256 := by
  intro b hb
  rw [bufferFromUtf8, List.mem_flatMap] at hb
  obtain ⟨c, _, hb2⟩ := hb
  exact utf8Encode_lt_256 (code c) (code_lt_char c) b hb2

theorem goodB64_b64Char : ∀ v < 64, goodB64 (b64Char v) = true := by decide

theorem mem_b64Pad (e : Char) (n : Nat) (h : e ∈ b64Pad n) : e = '=' := by
  rw [b64Pad] at h
  split_ifs at h
  · simp at h
    exact h
  · simp at h
    exact h
  · simp at h

theorem safeBase64Encode_chars (m : List Char) : ∀ e ∈ safeBase64Encode m, goodB64 e = true := by
  intro e he
  rw [safeBase64Encode, base64Encode, List.mem_append] at he
  rcases he with he | he
  · rw [List.mem_map] at he
    obtain ⟨v, hv, rfl⟩ := he
    exact goodB64_b64Char v (bytesToVals_lt _ (bufferFromUtf8_lt_256 _) v hv)
  · rw [mem_b64Pad e _ he]
    decide

theorem goodB64_allowed (e : Char) (h : goodB64 e = true) : allowedUrlChar e = true := by
  rw [goodB64] at h
  simp only [Bool.and_eq_true] at h
  exact h.1.1

/-- A pattern consisting of URL-allowed literal tokens up to a literal
anchor character that base64 output cannot contain (`:` or `.`) never
matches a string made of base64-output characters followed by text
whose first character the URL class rejects. -/
theorem b64_straddle_false (ch : Char) (ts2 : List RTok)
    (hch : goodB64 ch = false) (hch2 : allowedUrlChar ch = true) :
    ∀ (ts1 : List RTok), (∀ t ∈ ts1, allowedLit t = true) →
    ∀ (x T : List Char), (∀ e ∈ x, goodB64 e = true) → headBreaker T = true →
      rmatchesAt (ts1 ++ RTok.lit ch :: ts2) (x ++ T) = false := by
  intro ts1
  induction ts1 with
  | nil =>
    intro _ x T hx hT
    match x with
    | [] =>
      match T with
      | [] => rfl
      | b :: T2 =>
        have hb : allowedUrlChar b = false := by
          rw [headBreaker] at hT
          revert hT
          cases (allowedUrlChar b) <;> simp
        have hne : (b = ch) = False := by
          by_contra hc
          simp at hc
          rw [hc] at hb
          rw [hb] at hch2
          cases hch2
        simp [rmatchesAt, rtokMatches, hne]
    | e :: x2 =>
      have he : goodB64 e = true := hx e (by simp)
      have hne : (e = ch) = False := by
        by_contra hc
        simp at hc
        rw [hc] at he
        rw [he] at hch
        cases hch
      simp [rmatchesAt, rtokMatches, hne]
  | cons t ts1' ih =>
    intro h1 x T hx hT
    have ht : allowedLit t = true := h1 t (by simp)
    obtain ⟨d, rfl, hd⟩ : ∃ d, t = RTok.lit d ∧ allowedUrlChar d = true := by
      match t with
      | RTok.lit d => exact ⟨d, rfl, ht⟩
      | RTok.dot => exact absurd ht (by simp [allowedLit])
    match x with
    | [] =>
      match T with
      | [] => rfl
      | b :: T2 =>
        have hb : allowedUrlChar b = false := by
          rw [headBreaker] at hT
          revert hT
          cases (allowedUrlChar b) <;> simp
        have hne : (b = d) = False := by
          by_contra hc
          simp at hc
          rw [hc] at hb
          rw [hb] at hd
          cases hd
        simp [rmatchesAt, rtokMatches, hne]
    | e :: x2 =>
      have hrec := ih (fun u hu => h1 u (by simp [hu])) x2 T
        (fun e2 he2 => hx e2 (by simp [he2])) hT
      show rmatchesAt (RTok.lit d :: (ts1' ++ RTok.lit ch :: ts2)) (e :: (x2 ++ T)) = false
      rw [rmatchesAt, hrec]
      simp

/-! Structural lemmas about `step3MatchAt` and `step3ScanF`. -/

theorem step3MatchAt_none_of_head (c : Char) (hc : ¬(c = 'h')) (rest : List Char) :
    step3MatchAt (c :: rest) = none := by
  have h1 : ("https://".toList).isPrefixOf (c :: rest) = false := by
    show ('h' :: "ttps://".toList).isPrefixOf (c :: rest) = false
    simp [List.isPrefixOf]
    intro h
    exact absurd h.symm hc
  have h2 : ("http://".toList).isPrefixOf (c :: rest) = false := by
    show ('h' :: "ttp://".toList).isPrefixOf (c :: rest) = false
    simp [List.isPrefixOf]
    intro h
    exact absurd h.symm hc
  rw [step3MatchAt, h1, h2]
  rfl

theorem https_not_pre_http (X : List Char) :
    ("https://".toList).isPrefixOf ("http://".toList ++ X) = false := by
  simp [List.isPrefixOf]

theorem step3MatchAt_some_spec (s m : List Char) (h : step3MatchAt s = some m) :
    ∃ sch run, (sch = "https://".toList ∨ sch = "http://".toList) ∧
      m = sch ++ run ∧ run ≠ [] ∧ (∀ e ∈ run, allowedUrlChar e = true) ∧
      s = m ++ s.drop m.length ∧ headBreaker (s.drop m.length) = true := by
  rw [step3MatchAt] at h
  by_cases h1 : ("https://".toList).isPrefixOf s = true
  · rw [if_pos h1] at h
    by_cases h2 : (s.drop 8).takeWhile allowedUrlChar = []
    · rw [if_pos h2] at h
      cases h
    · rw [if_neg h2] at h
      have hm : m = "https://".toList ++ (s.drop 8).takeWhile allowedUrlChar := by
        exact (Option.some_injective _ h).symm
      refine ⟨"https://".toList, (s.drop 8).takeWhile allowedUrlChar, Or.inl rfl, hm, h2,
        fun e he => List.mem_takeWhile_imp he, ?_, ?_⟩
      · have hsplit := isPrefixOf_eq_append _ s h1
        have hlen8 : ("https://".toList).length = 8 := rfl
        rw [hlen8] at hsplit
        have hdrop : s.drop m.length = (s.drop 8).drop ((s.drop 8).takeWhile allowedUrlChar).length := by
          rw [hm]
          rw [List.length_append, hlen8, ← List.drop_drop]
        rw [hdrop, drop_length_takeWhile]
        calc s = "https://".toList ++ s.drop 8 := hsplit
          _ = "https://".toList ++ ((s.drop 8).takeWhile allowedUrlChar ++
                (s.drop 8).dropWhile allowedUrlChar) := by
                rw [List.takeWhile_append_dropWhile]
          _ = m ++ (s.drop 8).dropWhile allowedUrlChar := by
                rw [hm, List.append_assoc]
      · have hdrop : s.drop m.length = (s.drop 8).dropWhile allowedUrlChar := by
          rw [hm]
          have hlen8 : ("https://".toList).length = 8 := rfl
          rw [List.length_append, hlen8, ← List.drop_drop, drop_length_takeWhile]
        rw [hdrop]
        exact headBreaker_dropWhile _
  · rw [if_neg h1] at h
    by_cases h1b : ("http://".toList).isPrefixOf s = true
    · rw [if_pos h1b] at h
      by_cases h2 : (s.drop 7).takeWhile allowedUrlChar = []
      · rw [if_pos h2] at h
        cases h
      · rw [if_neg h2] at h
        have hm : m = "http://".toList ++ (s.drop 7).takeWhile allowedUrlChar := by
          exact (Option.some_injective _ h).symm
        refine ⟨"http://".toList, (s.drop 7).takeWhile allowedUrlChar, Or.inr rfl, hm, h2,
          fun e he => List.mem_takeWhile_imp he, ?_, ?_⟩
        · have hsplit := isPrefixOf_eq_append _ s h1b
          have hlen7 : ("http://".toList).length = 7 := rfl
          rw [hlen7] at hsplit
          have hdrop : s.drop m.length = (s.drop 7).drop ((s.drop 7).takeWhile allowedUrlChar).length := by
            rw [hm]
            rw [List.length_append, hlen7, ← List.drop_drop]
          rw [hdrop, drop_length_takeWhile]
          calc s = "http://".toList ++ s.drop 7 := hsplit
            _ = "http://".toList ++ ((s.drop 7).takeWhile allowedUrlChar ++
                  (s.drop 7).dropWhile allowedUrlChar) := by
                  rw [List.takeWhile_append_dropWhile]
            _ = m ++ (s.drop 7).dropWhile allowedUrlChar := by
                  rw [hm, List.append_assoc]
        · have hdrop : s.drop m.length = (s.drop 7).dropWhile allowedUrlChar := by
            rw [hm]
            have hlen7 : ("http://".toList).length = 7 := rfl
            rw [List.length_append, hlen7, ← List.drop_drop, drop_length_takeWhile]
          rw [hdrop]
          exact headBreaker_dropWhile _
    · rw [if_neg h1b] at h
      cases h

theorem step3MatchAt_cons_decomp (c : Char) (rest m : List Char)
    (h : step3MatchAt (c :: rest) = some m) :
    m ≠ [] ∧ c :: rest = m ++ rest.drop (m.length - 1) ∧
      headBreaker (rest.drop (m.length - 1)) = true := by
  obtain ⟨sch, run, hsch, hm, _, _, hsplit, hbrk⟩ := step3MatchAt_some_spec _ _ h
  have hne : m ≠ [] := by
    rcases hsch with rfl | rfl <;> (rw [hm]; simp)
  obtain ⟨k, hk⟩ : ∃ k, m.length = k + 1 := by
    match hm2 : m with
    | [] => exact absurd rfl hne
    | a :: as => exact ⟨as.length, by simp⟩
  have hdrop : (c :: rest).drop m.length = rest.drop (m.length - 1) := by
    rw [hk]
    simp
  rw [hdrop] at hsplit hbrk
  exact ⟨hne, hsplit, hbrk⟩

theorem step3MatchAt_chunk (sch run Z : List Char)
    (hsch : sch = "https://".toList ∨ sch = "http://".toList) (hrun : run ≠ [])
    (hall : ∀ e ∈ run, allowedUrlChar e = true) (hZ : headBreaker Z = true) :
    step3MatchAt ((sch ++ run) ++ Z) = some (sch ++ run) := by
  have htw : (run ++ Z).takeWhile allowedUrlChar = run := by
    rw [takeWhile_append_of_all _ run Z hall, headBreaker_takeWhile_nil Z hZ]
    simp
  rcases hsch with rfl | rfl
  · rw [step3MatchAt, List.append_assoc]
    rw [if_pos (isPrefixOf_append_self _ _)]
    have hdrop : ("https://".toList ++ (run ++ Z)).drop 8 = run ++ Z := rfl
    rw [hdrop, htw, if_neg hrun]
  · rw [step3MatchAt, List.append_assoc]
    rw [https_not_pre_http (run ++ Z)]
    rw [if_neg (by simp)]
    rw [if_pos (isPrefixOf_append_self _ _)]
    have hdrop : ("http://".toList ++ (run ++ Z)).drop 7 = run ++ Z := rfl
    rw [hdrop, htw, if_neg hrun]

theorem step3F_nil (p g : List Char) (fuel : Nat) : step3ScanF p g fuel [] = [] := by
  cases fuel <;> rfl

theorem step3F_cons_none (p g : List Char) (fuel : Nat) (c : Char) (rest : List Char)
    (hm : step3MatchAt (c :: rest) = none) :
    step3ScanF p g (fuel + 1) (c :: rest) = c :: step3ScanF p g fuel rest := by
  rw [step3ScanF.eq_def]
  dsimp only
  rw [hm]

theorem step3F_cons_some (p g : List Char) (fuel : Nat) (c : Char) (rest m : List Char)
    (hm : step3MatchAt (c :: rest) = some m) :
    step3ScanF p g (fuel + 1) (c :: rest) =
      (if includesSub m p || includesSub m g then m
       else p ++ '/' :: g ++ '/' :: safeBase64Encode m) ++
        step3ScanF p g fuel (List.drop (m.length - 1) rest) := by
  rw [step3ScanF.eq_def]
  dsimp only
  rw [hm]

theorem step3F_not_h (p g : List Char) (b : Char) (hb : ¬(b = 'h')) (fuel : Nat)
    (s2 : List Char) : ∃ Z, step3ScanF p g fuel (b :: s2) = b :: Z := by
  match fuel with
  | 0 => exact ⟨s2, rfl⟩
  | fuel + 1 =>
    exact ⟨step3ScanF p g fuel s2,
      step3F_cons_none p g fuel b s2 (step3MatchAt_none_of_head b hb s2)⟩

theorem step3F_headBreaker (p g : List Char) (s : List Char) (hs : headBreaker s = true)
    (fuel : Nat) : headBreaker (step3ScanF p g fuel s) = true := by
  match s with
  | [] =>
    rw [step3F_nil]
    rfl
  | b :: s2 =>
    have hb : allowedUrlChar b = false := by
      rw [headBreaker] at hs
      revert hs
      cases (allowedUrlChar b) <;> simp
    have hbh : ¬(b = 'h') := by
      intro hc
      rw [hc] at hb
      exact absurd hb (by decide)
    obtain ⟨Z, hZ⟩ := step3F_not_h p g b hbh fuel s2
    rw [hZ]
    simp [headBreaker, hb]

theorem step3F_chunk_head (fuel : Nat) (c : Char) (rest m : List Char)
    (hm : step3MatchAt (c :: rest) = some m) :
    ∃ Z, step3ScanF pSite gPath (fuel + 1) (c :: rest) = 'h' :: Z := by
  obtain ⟨sch, run, hsch, hmeq, _, _, _, _⟩ := step3MatchAt_some_spec _ _ hm
  rw [step3F_cons_some pSite gPath fuel c rest m hm]
  by_cases hc : (includesSub m pSite || includesSub m gPath) = true
  · rw [if_pos hc]
    rcases hsch with rfl | rfl
    · rw [hmeq]
      exact ⟨_, rfl⟩
    · rw [hmeq]
      exact ⟨_, rfl⟩
  · rw [if_neg hc]
    exact ⟨_, rfl⟩

theorem step3F_pre_pull : ∀ (w : List Char), (∀ e ∈ w, ¬(e = 'h')) →
    ∀ (fuel : Nat) (rest : List Char),
      w.isPrefixOf (step3ScanF pSite gPath fuel rest) = true →
      w.isPrefixOf rest = true := by
  intro w
  induction w with
  | nil =>
    intro _ fuel rest _
    simp [List.isPrefixOf]
  | cons a w' ih =>
    intro hw fuel rest h
    have ha : ¬(a = 'h') := hw a (by simp)
    match rest with
    | [] =>
      rw [step3F_nil] at h
      exact absurd h (by simp [List.isPrefixOf])
    | c0 :: rest' =>
      match fuel with
      | 0 => exact h
      | fuel + 1 =>
        rcases hm : step3MatchAt (c0 :: rest') with _ | m
        · rw [step3F_cons_none pSite gPath fuel c0 rest' hm] at h
          simp only [List.isPrefixOf, Bool.and_eq_true, beq_iff_eq] at h
          obtain ⟨rfl, h2⟩ := h
          simp only [List.isPrefixOf, Bool.and_eq_true, beq_iff_eq]
          exact ⟨trivial, ih (fun e he => hw e (by simp [he])) fuel rest' h2⟩
        · obtain ⟨Z, hZ⟩ := step3F_chunk_head fuel c0 rest' m hm
          rw [hZ] at h
          simp only [List.isPrefixOf, Bool.and_eq_true, beq_iff_eq] at h
          exact absurd h.1 ha

theorem step3F_copy : ∀ (w : List Char), (∀ e ∈ w, ¬(e = 'h')) →
    ∀ (fuel : Nat) (R : List Char),
      ∃ Z, step3ScanF pSite gPath fuel (w ++ R) = w ++ Z ∧
        (headBreaker R = true → headBreaker Z = true) := by
  intro w
  induction w with
  | nil =>
    intro _ fuel R
    exact ⟨step3ScanF pSite gPath fuel R, by simp,
      fun hR => step3F_headBreaker pSite gPath R hR fuel⟩
  | cons a w' ih =>
    intro hw fuel R
    have ha : ¬(a = 'h') := hw a (by simp)
    match fuel with
    | 0 => exact ⟨R, rfl, fun hR => hR⟩
    | fuel + 1 =>
      have hm : step3MatchAt (a :: (w' ++ R)) = none := step3MatchAt_none_of_head a ha _
      obtain ⟨Z, hZ, hbrk⟩ := ih (fun e he => hw e (by simp [he])) fuel R
      refine ⟨Z, ?_, hbrk⟩
      show step3ScanF pSite gPath (fuel + 1) (a :: (w' ++ R)) = a :: (w' ++ Z)
      rw [step3F_cons_none pSite gPath fuel a (w' ++ R) hm, hZ]

theorem step3MatchAt_none_pres (c : Char) (rest : List Char) (fuel : Nat)
    (h : step3MatchAt (c :: rest) = none) :
    step3MatchAt (c :: step3ScanF pSite gPath fuel rest) = none := by
  by_cases hc : c = 'h'
  case neg => exact step3MatchAt_none_of_head c hc _
  subst hc
  rcases hm2 : step3MatchAt ('h' :: step3ScanF pSite gPath fuel rest) with _ | m
  · rfl
  exfalso
  obtain ⟨sch, run, hsch, hmeq, hrun, hall, hsplit, hbrk⟩ := step3MatchAt_some_spec _ _ hm2
  have hpre : sch.isPrefixOf ('h' :: step3ScanF pSite gPath fuel rest) = true := by
    rw [hsplit, hmeq, List.append_assoc]
    exact isPrefixOf_append_self _ _
  rcases hsch with rfl | rfl
  · have h8 : ("https://".toList).isPrefixOf ('h' :: step3ScanF pSite gPath fuel rest) =
        (('h' : Char) == 'h' && ("ttps://".toList).isPrefixOf (step3ScanF pSite gPath fuel rest)) :=
      rfl
    rw [h8] at hpre
    simp only [Bool.and_eq_true, beq_iff_eq] at hpre
    have hrest : ("ttps://".toList).isPrefixOf rest = true :=
      step3F_pre_pull _ (by decide) fuel rest hpre.2
    have hresteq : rest = "ttps://".toList ++ rest.drop 7 := by
      have h7 : ("ttps://".toList).length = 7 := rfl
      have := isPrefixOf_eq_append _ rest hrest
      rw [h7] at this
      exact this
    have hIn : 'h' :: rest = "https://".toList ++ rest.drop 7 := by
      conv_lhs => rw [hresteq]
      rfl
    have hbrkR : (rest.drop 7).takeWhile allowedUrlChar = [] := by
      by_contra hr
      have hchunk := step3MatchAt_chunk "https://".toList
        ((rest.drop 7).takeWhile allowedUrlChar) ((rest.drop 7).dropWhile allowedUrlChar)
        (Or.inl rfl) hr (fun e he => List.mem_takeWhile_imp he) (headBreaker_dropWhile _)
      rw [List.append_assoc, List.takeWhile_append_dropWhile, ← hIn] at hchunk
      rw [hchunk] at h
      cases h
    have hbrkR2 : headBreaker (rest.drop 7) = true := takeWhile_nil_headBreaker _ hbrkR
    obtain ⟨Z, hcopy, hZbrk⟩ := step3F_copy "ttps://".toList (by decide) fuel (rest.drop 7)
    have hOut : step3ScanF pSite gPath fuel rest = "ttps://".toList ++ Z := by
      conv_lhs => rw [hresteq]
      exact hcopy
    have hZb := hZbrk hbrkR2
    have hnone : step3MatchAt ('h' :: step3ScanF pSite gPath fuel rest) = none := by
      rw [hOut]
      have heq : 'h' :: ("ttps://".toList ++ Z) = "https://".toList ++ Z := rfl
      rw [heq, step3MatchAt, if_pos (isPrefixOf_append_self _ _)]
      have hdrop8 : ("https://".toList ++ Z).drop 8 = Z := rfl
      rw [hdrop8, headBreaker_takeWhile_nil Z hZb, if_pos rfl]
    rw [hm2] at hnone
    cases hnone
  · have h8 : ("http://".toList).isPrefixOf ('h' :: step3ScanF pSite gPath fuel rest) =
        (('h' : Char) == 'h' && ("ttp://".toList).isPrefixOf (step3ScanF pSite gPath fuel rest)) :=
      rfl
    rw [h8] at hpre
    simp only [Bool.and_eq_true, beq_iff_eq] at hpre
    have hrest : ("ttp://".toList).isPrefixOf rest = true :=
      step3F_pre_pull _ (by decide) fuel rest hpre.2
    have hresteq : rest = "ttp://".toList ++ rest.drop 6 := by
      have h6 : ("ttp://".toList).length = 6 := rfl
      have := isPrefixOf_eq_append _ rest hrest
      rw [h6] at this
      exact this
    have hIn : 'h' :: rest = "http://".toList ++ rest.drop 6 := by
      conv_lhs => rw [hresteq]
      rfl
    have hbrkR : (rest.drop 6).takeWhile allowedUrlChar = [] := by
      by_contra hr
      have hchunk := step3MatchAt_chunk "http://".toList
        ((rest.drop 6).takeWhile allowedUrlChar) ((rest.drop 6).dropWhile allowedUrlChar)
        (Or.inr rfl) hr (fun e he => List.mem_takeWhile_imp he) (headBreaker_dropWhile _)
      rw [List.append_assoc, List.takeWhile_append_dropWhile, ← hIn] at hchunk
      rw [hchunk] at h
      cases h
    have hbrkR2 : headBreaker (rest.drop 6) = true := takeWhile_nil_headBreaker _ hbrkR
    obtain ⟨Z, hcopy, hZbrk⟩ := step3F_copy "ttp://".toList (by decide) fuel (rest.drop 6)
    have hOut : step3ScanF pSite gPath fuel rest = "ttp://".toList ++ Z := by
      conv_lhs => rw [hresteq]
      exact hcopy
    have hZb := hZbrk hbrkR2
    have hnone : step3MatchAt ('h' :: step3ScanF pSite gPath fuel rest) = none := by
      rw [hOut]
      have heq : 'h' :: ("ttp://".toList ++ Z) = "http://".toList ++ Z := rfl
      rw [heq, step3MatchAt]
      rw [https_not_pre_http Z]
      rw [if_neg (by simp)]
      rw [if_pos (isPrefixOf_append_self _ _)]
      have hdrop7 : ("http://".toList ++ Z).drop 7 = Z := rfl
      rw [hdrop7, headBreaker_takeWhile_nil Z hZb, if_pos rfl]
    rw [hm2] at hnone
    cases hnone

/-! Pulling matches of a pattern suffix back through a step-3 pass, and
preservation of pattern absence by a step-3 pass. -/

theorem step3_pullback (P : List RTok)
    (Hfix : ∀ d, d < P.length → 1 ≤ d → agreesPre (P.drop d) fixedR3 = false) :
    ∀ fuel s d, 1 ≤ d →
      rmatchesAt (P.drop d) (step3ScanF pSite gPath fuel s) = true →
      rmatchesAt (P.drop d) s = true := by
  intro fuel
  induction fuel with
  | zero =>
    intro s d hd h
    match s with
    | [] =>
      rw [step3F_nil] at h
      exact h
    | c :: rest => exact h
  | succ fuel ih =>
    intro s d hd h
    match s with
    | [] =>
      rw [step3F_nil] at h
      exact h
    | c :: rest =>
      rcases hQ : P.drop d with _ | ⟨t, ts⟩
      · exact rmatchesAt_nil_left _
      · rcases hm : step3MatchAt (c :: rest) with _ | m
        · rw [step3F_cons_none pSite gPath fuel c rest hm, hQ] at h
          have h2 := (rmatchesAt_cons_iff t ts c _).mp h
          have hts : P.drop (d + 1) = ts := drop_one_drop P d t ts hQ
          have hpull := ih rest (d + 1) (by omega) (by rw [hts]; exact h2.2)
          rw [hts] at hpull
          exact (rmatchesAt_cons_iff t ts c rest).mpr ⟨h2.1, hpull⟩
        · obtain ⟨hmne, hsplit, hbrk⟩ := step3MatchAt_cons_decomp c rest m hm
          rw [step3F_cons_some pSite gPath fuel c rest m hm] at h
          by_cases hkeep : (includesSub m pSite || includesSub m gPath) = true
          · rw [if_pos hkeep, hQ] at h
            by_cases hlen : (t :: ts).length ≤ m.length
            · rw [rmatchesAt_append_left_of_le (t :: ts) m _
                (rest.drop (m.length - 1)) hlen] at h
              rw [hsplit]
              exact h
            · push_neg at hlen
              have hsp := rmatchesAt_append_split (t :: ts) m _ h hlen
              have hag := rmatchesAt_append_agreesPre (t :: ts) m _ h
              have hdd : (t :: ts).drop m.length = P.drop (m.length + d) := by
                rw [← hQ, List.drop_drop, Nat.add_comm]
              rw [hdd] at hsp
              have hpull := ih (rest.drop (m.length - 1)) (m.length + d) (by omega) hsp
              rw [hsplit]
              refine rmatchesAt_append_join (t :: ts) m _ hag (by omega) ?_
              rw [hdd]
              exact hpull
          · rw [if_neg hkeep, hQ] at h
            have hch : (pSite ++ '/' :: gPath ++ '/' :: safeBase64Encode m) =
                fixedR3 ++ safeBase64Encode m := rfl
            rw [hch, List.append_assoc] at h
            have hag := rmatchesAt_append_agreesPre (t :: ts) fixedR3 _ h
            have hdlt : d < P.length := drop_ne_nil_lt P d t ts hQ
            have hfix := Hfix d hdlt hd
            rw [hQ] at hfix
            rw [hfix] at hag
            cases hag

theorem step3_preserve (P : List RTok) (hP : P ≠ [])
    (Hfix : ∀ d, d < P.length → 1 ≤ d → agreesPre (P.drop d) fixedR3 = false)
    (Henc : ∀ (B T : List Char), (∀ e ∈ B, goodB64 e = true) → headBreaker T = true →
      ∀ i, i < (fixedR3 ++ B).length →
        rmatchesAt P ((fixedR3 ++ B).drop i ++ T) = false) :
    ∀ fuel s, noMatchAll P s → noMatchAll P (step3ScanF pSite gPath fuel s) := by
  intro fuel
  induction fuel with
  | zero =>
    intro s hs
    match s with
    | [] =>
      rw [step3F_nil]
      exact hs
    | c :: rest => exact hs
  | succ fuel ih =>
    intro s hs
    match s with
    | [] =>
      rw [step3F_nil]
      exact hs
    | c :: rest =>
      rcases hm : step3MatchAt (c :: rest) with _ | m
      · rw [step3F_cons_none pSite gPath fuel c rest hm]
        have hrest : noMatchAll P rest :=
          noMatchAll_suffix P (c :: rest) rest hs (List.suffix_cons c rest)
        refine (noMatchAll_cons_iff P c _).mpr ⟨?_, ih rest hrest⟩
        by_contra hmatch
        rw [Bool.not_eq_false] at hmatch
        obtain ⟨t, ts, hre2⟩ : ∃ t ts, P = t :: ts := by
          cases P with
          | nil => exact absurd rfl hP
          | cons a as => exact ⟨a, as, rfl⟩
        rw [hre2] at hmatch
        have h2 := (rmatchesAt_cons_iff t ts c _).mp hmatch
        have hts : P.drop 1 = ts := by rw [hre2]; rfl
        have hpull := step3_pullback P Hfix fuel rest 1 (le_refl 1)
          (by rw [hts]; exact h2.2)
        rw [hts] at hpull
        have hfull : rmatchesAt P (c :: rest) = true := by
          rw [hre2]
          exact (rmatchesAt_cons_iff t ts c rest).mpr ⟨h2.1, hpull⟩
        have hcontra := hs (c :: rest) (List.suffix_refl _)
        rw [hfull] at hcontra
        cases hcontra
      · obtain ⟨hmne, hsplit, hbrk⟩ := step3MatchAt_cons_decomp c rest m hm
        rw [step3F_cons_some pSite gPath fuel c rest m hm]
        have hsT : noMatchAll P (rest.drop (m.length - 1)) := by
          refine noMatchAll_suffix P (c :: rest) _ hs ?_
          exact (List.drop_suffix _ _).trans (List.suffix_cons c rest)
        have hrec := ih _ hsT
        have hrecBrk :
            headBreaker (step3ScanF pSite gPath fuel (rest.drop (m.length - 1))) = true :=
          step3F_headBreaker pSite gPath _ hbrk fuel
        by_cases hkeep : (includesSub m pSite || includesSub m gPath) = true
        · rw [if_pos hkeep]
          intro u hu
          rcases suffix_append_cases u m _ hu with h2 | ⟨i, hi, rfl⟩
          · exact hrec u h2
          · by_contra hmatch
            rw [Bool.not_eq_false] at hmatch
            have hsuf : m.drop i ++ rest.drop (m.length - 1) <:+ c :: rest := by
              rw [hsplit]
              exact suffix_append_right _ m _ (List.drop_suffix i m)
            by_cases hlen : P.length ≤ (m.drop i).length
            · rw [rmatchesAt_append_left_of_le P (m.drop i) _
                (rest.drop (m.length - 1)) hlen] at hmatch
              have hcontra := hs _ hsuf
              rw [hmatch] at hcontra
              cases hcontra
            · push_neg at hlen
              have hlen1 : 1 ≤ (m.drop i).length := by
                rw [List.length_drop]
                omega
              have hsp := rmatchesAt_append_split P (m.drop i) _ hmatch hlen
              have hag := rmatchesAt_append_agreesPre P (m.drop i) _ hmatch
              have hpull := step3_pullback P Hfix fuel (rest.drop (m.length - 1))
                (m.drop i).length hlen1 hsp
              have hjoin := rmatchesAt_append_join P (m.drop i) _ hag (by omega) hpull
              have hcontra := hs _ hsuf
              rw [hjoin] at hcontra
              cases hcontra
        · rw [if_neg hkeep]
          have hch : (pSite ++ '/' :: gPath ++ '/' :: safeBase64Encode m) =
              fixedR3 ++ safeBase64Encode m := rfl
          rw [hch]
          intro u hu
          rcases suffix_append_cases u (fixedR3 ++ safeBase64Encode m) _ hu with h2 | ⟨i, hi, rfl⟩
          · exact hrec u h2
          · exact Henc (safeBase64Encode m) _ (safeBase64Encode_chars m) hrecBrk i hi

/-! The decidable side conditions for the three patterns of interest. -/

theorem hfix_reO : ∀ d, d < reO.length → 1 ≤ d → agreesPre (reO.drop d) fixedR3 = false := by
  decide

theorem hfix_pat2a : ∀ d, d < pat2a.length → 1 ≤ d →
    agreesPre (pat2a.drop d) fixedR3 = false := by
  decide

theorem hfix_pat2b : ∀ d, d < pat2b.length → 1 ≤ d →
    agreesPre (pat2b.drop d) fixedR3 = false := by
  decide

theorem henc_reO : ∀ (B T : List Char), (∀ e ∈ B, goodB64 e = true) → headBreaker T = true →
    ∀ i, i < (fixedR3 ++ B).length →
      rmatchesAt reO ((fixedR3 ++ B).drop i ++ T) = false := by
  intro B T hB hT i _
  have hlen23 : fixedR3.length = 23 := rfl
  by_cases h23 : i < 23
  · rw [drop_append_le fixedR3 B i (by rw [hlen23]; omega), List.append_assoc]
    by_contra hmatch
    rw [Bool.not_eq_false] at hmatch
    have hag := rmatchesAt_append_agreesPre reO (fixedR3.drop i) _ hmatch
    have hfact : ∀ j, j < 23 → agreesPre reO (fixedR3.drop j) = false := by decide
    rw [hfact i h23] at hag
    cases hag
  · push_neg at h23
    have hdrop := drop_append_ge fixedR3 B i (by rw [hlen23]; omega)
    rw [hlen23] at hdrop
    rw [hdrop]
    have hdec : reO = (reO.take 5) ++ RTok.lit ':' :: (reO.drop 6) := by decide
    rw [hdec]
    exact b64_straddle_false ':' (reO.drop 6) (by decide) (by decide) (reO.take 5) (by decide)
      (B.drop (i - 23)) T (fun e he => hB e (mem_drop_subset _ B e he)) hT

theorem henc_pat2a : ∀ (B T : List Char), (∀ e ∈ B, goodB64 e = true) → headBreaker T = true →
    ∀ i, i < (fixedR3 ++ B).length →
      rmatchesAt pat2a ((fixedR3 ++ B).drop i ++ T) = false := by
  intro B T hB hT i _
  have hlen23 : fixedR3.length = 23 := rfl
  by_cases h23 : i < 23
  · rw [drop_append_le fixedR3 B i (by rw [hlen23]; omega), List.append_assoc]
    by_cases h22 : i = 22
    · subst h22
      have h22d : fixedR3.drop 22 = ['/'] := rfl
      rw [h22d]
      have hform : (['/'] : List Char) ++ (B ++ T) = '/' :: (B ++ T) := rfl
      rw [hform]
      have hstr := b64_straddle_false '.' (litToks ("com".toList)) (by decide) (by decide)
        (litToks ("/example".toList)) (by decide) B T hB hT
      have hdecA : pat2a =
          RTok.lit '/' :: (litToks ("/example".toList) ++ RTok.lit '.' ::
            litToks ("com".toList)) := by
        decide
      rw [hdecA]
      show (rtokMatches (RTok.lit '/') '/' &&
        rmatchesAt (litToks ("/example".toList) ++ RTok.lit '.' ::
          litToks ("com".toList)) (B ++ T)) = false
      rw [hstr]
      simp
    · by_contra hmatch
      rw [Bool.not_eq_false] at hmatch
      have hag := rmatchesAt_append_agreesPre pat2a (fixedR3.drop i) _ hmatch
      have hfact : ∀ j, j < 23 → ¬(j = 22) → agreesPre pat2a (fixedR3.drop j) = false := by
        decide
      rw [hfact i h23 h22] at hag
      cases hag
  · push_neg at h23
    have hdrop := drop_append_ge fixedR3 B i (by rw [hlen23]; omega)
    rw [hlen23] at hdrop
    rw [hdrop]
    have hdec : pat2a = (pat2a.take 9) ++ RTok.lit '.' :: (pat2a.drop 10) := by decide
    rw [hdec]
    exact b64_straddle_false '.' (pat2a.drop 10) (by decide) (by decide) (pat2a.take 9)
      (by decide) (B.drop (i - 23)) T (fun e he => hB e (mem_drop_subset _ B e he)) hT

theorem henc_pat2b : ∀ (B T : List Char), (∀ e ∈ B, goodB64 e = true) → headBreaker T = true →
    ∀ i, i < (fixedR3 ++ B).length →
      rmatchesAt pat2b ((fixedR3 ++ B).drop i ++ T) = false := by
  intro B T hB hT i _
  have hlen23 : fixedR3.length = 23 := rfl
  by_cases h23 : i < 23
  · rw [drop_append_le fixedR3 B i (by rw [hlen23]; omega), List.append_assoc]
    by_cases h22 : i = 22
    · subst h22
      have h22d : fixedR3.drop 22 = ['/'] := rfl
      rw [h22d]
      have hform : (['/'] : List Char) ++ (B ++ T) = '/' :: (B ++ T) := rfl
      rw [hform]
      have hstr := b64_straddle_false '.' (litToks ("example.com".toList)) (by decide) (by decide)
        (litToks ("/www".toList)) (by decide) B T hB hT
      have hdecB : pat2b =
          RTok.lit '/' :: (litToks ("/www".toList) ++ RTok.lit '.' ::
            litToks ("example.com".toList)) := by
        decide
      rw [hdecB]
      show (rtokMatches (RTok.lit '/') '/' &&
        rmatchesAt (litToks ("/www".toList) ++ RTok.lit '.' ::
          litToks ("example.com".toList)) (B ++ T)) = false
      rw [hstr]
      simp
    · by_contra hmatch
      rw [Bool.not_eq_false] at hmatch
      have hag := rmatchesAt_append_agreesPre pat2b (fixedR3.drop i) _ hmatch
      have hfact : ∀ j, j < 23 → ¬(j = 22) → agreesPre pat2b (fixedR3.drop j) = false := by
        decide
      rw [hfact i h23 h22] at hag
      cases hag
  · push_neg at h23
    have hdrop := drop_append_ge fixedR3 B i (by rw [hlen23]; omega)
    rw [hlen23] at hdrop
    rw [hdrop]
    have hdec : pat2b = (pat2b.take 5) ++ RTok.lit '.' :: (pat2b.drop 6) := by decide
    rw [hdec]
    exact b64_straddle_false '.' (pat2b.drop 6) (by decide) (by decide) (pat2b.take 5)
      (by decide) (B.drop (i - 23)) T (fun e he => hB e (mem_drop_subset _ B e he)) hT

/-! A step-3 pass leaves its own output unchanged: every match the
scanner finds in the output contains the proxy site. -/

theorem s3U_nil (p g : List Char) (fuel : Nat) : s3UnchangedF p g fuel [] = true := by
  cases fuel <;> rfl

theorem s3U_cons_none (p g : List Char) (fuel : Nat) (c : Char) (rest : List Char)
    (hm : step3MatchAt (c :: rest) = none) :
    s3UnchangedF p g (fuel + 1) (c :: rest) = s3UnchangedF p g fuel rest := by
  rw [s3UnchangedF.eq_def]
  dsimp only
  rw [hm]

theorem s3U_cons_some (p g : List Char) (fuel : Nat) (c : Char) (rest m : List Char)
    (hm : step3MatchAt (c :: rest) = some m) :
    s3UnchangedF p g (fuel + 1) (c :: rest) =
      ((includesSub m p || includesSub m g) &&
        s3UnchangedF p g fuel (List.drop (m.length - 1) rest)) := by
  rw [s3UnchangedF.eq_def]
  dsimp only
  rw [hm]

theorem includesSub_of_pre (sub : List Char) (x : Char) (xs : List Char)
    (h : sub.isPrefixOf (x :: xs) = true) : includesSub (x :: xs) sub = true := by
  rw [includesSub, h]
  rfl

theorem s3U_of_scan : ∀ (fuel : Nat) (s : List Char), s.length ≤ fuel →
    ∀ fuel2, s3UnchangedF pSite gPath fuel2 (step3ScanF pSite gPath fuel s) = true := by
  intro fuel
  induction fuel with
  | zero =>
    intro s hlen fuel2
    have hs : s = [] := by
      match s with
      | [] => rfl
      | c :: rest => simp at hlen
    subst hs
    rw [step3F_nil, s3U_nil]
  | succ fuel ih =>
    intro s hlen fuel2
    match s with
    | [] => rw [step3F_nil, s3U_nil]
    | c :: rest =>
      have hlen2 : rest.length ≤ fuel := by
        simp only [List.length_cons] at hlen
        omega
      rcases hm : step3MatchAt (c :: rest) with _ | m
      · rw [step3F_cons_none pSite gPath fuel c rest hm]
        match fuel2 with
        | 0 => rfl
        | f2 + 1 =>
          have hm2 := step3MatchAt_none_pres c rest fuel hm
          rw [s3U_cons_none pSite gPath f2 c _ hm2]
          exact ih rest hlen2 f2
      · obtain ⟨hmne, hsplit, hbrk⟩ := step3MatchAt_cons_decomp c rest m hm
        obtain ⟨sch, run, hsch, hmeq, hrun, hall, _, _⟩ := step3MatchAt_some_spec _ _ hm
        rw [step3F_cons_some pSite gPath fuel c rest m hm]
        have hlenT : (rest.drop (m.length - 1)).length ≤ fuel := by
          rw [List.length_drop]
          omega
        have hZbrk :
            headBreaker (step3ScanF pSite gPath fuel (rest.drop (m.length - 1))) = true :=
          step3F_headBreaker pSite gPath _ hbrk fuel
        by_cases hkeep : (includesSub m pSite || includesSub m gPath) = true
        · rw [if_pos hkeep]
          obtain ⟨a, m', rfl⟩ : ∃ a m', m = a :: m' := by
            match m with
            | [] => exact absurd rfl hmne
            | a :: m' => exact ⟨a, m', rfl⟩
          have hmatch2 := step3MatchAt_chunk sch run
            (step3ScanF pSite gPath fuel (rest.drop ((a :: m').length - 1)))
            hsch hrun hall hZbrk
          rw [← hmeq] at hmatch2
          rw [List.cons_append] at hmatch2
          match fuel2 with
          | 0 => rfl
          | f2 + 1 =>
            rw [List.cons_append]
            rw [s3U_cons_some pSite gPath f2 a _ (a :: m') hmatch2]
            rw [hkeep]
            have hc1 : (a :: m').length - 1 = m'.length := by simp
            have hdropZ : (m' ++
                step3ScanF pSite gPath fuel (rest.drop ((a :: m').length - 1))).drop
                  ((a :: m').length - 1) =
                step3ScanF pSite gPath fuel (rest.drop ((a :: m').length - 1)) := by
              rw [hc1, drop_append_ge m' _ m'.length (le_refl _)]
              simp
            rw [hdropZ]
            rw [ih (rest.drop ((a :: m').length - 1)) hlenT f2]
            rfl
        · rw [if_neg hkeep]
          have hch : (pSite ++ '/' :: gPath ++ '/' :: safeBase64Encode m) =
              fixedR3 ++ safeBase64Encode m := rfl
          rw [hch]
          have hBall : ∀ e ∈ "proxy.local/gp/".toList ++ safeBase64Encode m,
              allowedUrlChar e = true := by
            intro e he
            rw [List.mem_append] at he
            rcases he with he | he
            · have hlit : ∀ e2 ∈ "proxy.local/gp/".toList, allowedUrlChar e2 = true := by
                decide
              exact hlit e he
            · exact goodB64_allowed e (safeBase64Encode_chars m e he)
          have hmatch2 : step3MatchAt ((fixedR3 ++ safeBase64Encode m) ++
              step3ScanF pSite gPath fuel (rest.drop (m.length - 1))) =
              some (fixedR3 ++ safeBase64Encode m) := by
            have hfr : fixedR3 ++ safeBase64Encode m =
                "https://".toList ++ ("proxy.local/gp/".toList ++ safeBase64Encode m) := rfl
            rw [hfr]
            exact step3MatchAt_chunk "https://".toList _ _ (Or.inl rfl) (by simp) hBall hZbrk
          have hinc : includesSub (fixedR3 ++ safeBase64Encode m) pSite = true := by
            have hpre2 : pSite.isPrefixOf (fixedR3 ++ safeBase64Encode m) = true := by
              have hfr2 : fixedR3 ++ safeBase64Encode m =
                  pSite ++ ('/' :: gPath ++ '/' :: safeBase64Encode m) := rfl
              rw [hfr2]
              exact isPrefixOf_append_self _ _
            have hcons : fixedR3 ++ safeBase64Encode m =
                'h' :: ("ttps://proxy.local/gp/".toList ++ safeBase64Encode m) := rfl
            rw [hcons] at hpre2 ⊢
            exact includesSub_of_pre pSite _ _ hpre2
          match fuel2 with
          | 0 => rfl
          | f2 + 1 =>
            have hcons2 : (fixedR3 ++ safeBase64Encode m) ++
                step3ScanF pSite gPath fuel (rest.drop (m.length - 1)) =
                'h' :: (("ttps://proxy.local/gp/".toList ++ safeBase64Encode m) ++
                  step3ScanF pSite gPath fuel (rest.drop (m.length - 1))) := rfl
            rw [hcons2]
            rw [hcons2] at hmatch2
            rw [s3U_cons_some pSite gPath f2 'h'
              (("ttps://proxy.local/gp/".toList ++ safeBase64Encode m) ++
                step3ScanF pSite gPath fuel (rest.drop (m.length - 1)))
              (fixedR3 ++ safeBase64Encode m) hmatch2]
            rw [hinc]
            have hCt : ("ttps://proxy.local/gp/".toList ++ safeBase64Encode m).length =
                (fixedR3 ++ safeBase64Encode m).length - 1 := by
              rw [List.length_append, List.length_append]
              have h1 : ("ttps://proxy.local/gp/".toList).length = 22 := rfl
              have h2 : fixedR3.length = 23 := rfl
              rw [h1, h2]
              omega
            have hdropZ : ((("ttps://proxy.local/gp/".toList ++ safeBase64Encode m)) ++
                step3ScanF pSite gPath fuel (rest.drop (m.length - 1))).drop
                  ((fixedR3 ++ safeBase64Encode m).length - 1) =
                step3ScanF pSite gPath fuel (rest.drop (m.length - 1)) := by
              rw [← hCt, drop_append_ge _ _ _ (le_refl _)]
              simp
            rw [hdropZ]
            rw [ih (rest.drop (m.length - 1)) hlenT f2]
            rfl

theorem s3Unchanged_id : ∀ (fuel : Nat) (s : List Char), s.length ≤ fuel →
    s3UnchangedF pSite gPath fuel s = true → step3ScanF pSite gPath fuel s = s := by
  intro fuel
  induction fuel with
  | zero =>
    intro s hlen _
    match s with
    | [] => rfl
    | c :: rest => simp at hlen
  | succ fuel ih =>
    intro s hlen hu
    match s with
    | [] => rfl
    | c :: rest =>
      have hlen2 : rest.length ≤ fuel := by
        simp only [List.length_cons] at hlen
        omega
      rcases hm : step3MatchAt (c :: rest) with _ | m
      · rw [step3F_cons_none pSite gPath fuel c rest hm]
        rw [s3U_cons_none pSite gPath fuel c rest hm] at hu
        rw [ih rest hlen2 hu]
      · obtain ⟨hmne, hsplit, hbrk⟩ := step3MatchAt_cons_decomp c rest m hm
        rw [step3F_cons_some pSite gPath fuel c rest m hm]
        rw [s3U_cons_some pSite gPath fuel c rest m hm] at hu
        simp only [Bool.and_eq_true] at hu
        rw [if_pos hu.1]
        have hlenT : (rest.drop (m.length - 1)).length ≤ fuel := by
          rw [List.length_drop]
          omega
        rw [ih _ hlenT hu.2]
        exact hsplit.symm

/-! The step-2 matcher versus the two protocol-relative patterns. -/

theorem pre2_iff (w : List Char) (a b : Char) (rest : List Char) :
    ('/' :: '/' :: w).isPrefixOf (a :: b :: rest) = true ↔
      (a = '/' ∧ b = '/' ∧ w.isPrefixOf rest = true) := by
  constructor
  · intro h
    simp only [List.isPrefixOf, Bool.and_eq_true, beq_iff_eq] at h
    exact ⟨h.1.symm, h.2.1.symm, h.2.2⟩
  · intro ⟨h1, h2, h3⟩
    simp only [List.isPrefixOf, Bool.and_eq_true, beq_iff_eq]
    exact ⟨h1.symm, h2.symm, h3⟩

theorem step2_pos (host s : List Char) (k : Nat) (h : step2MatchLen host s = some k) :
    1 ≤ k ∧ k ≤ s.length := by
  match s with
  | [] => simp [step2MatchLen] at h
  | [a] => simp [step2MatchLen] at h
  | a :: b :: rest =>
    simp only [step2MatchLen] at h
    split at h
    · split at h
      · rename_i h1
        have hk : 2 + 4 + host.length = k := Option.some_injective _ h
        simp only [Bool.and_eq_true] at h1
        have hw := isPrefixOf_length_le _ _ h1.1
        have hh := isPrefixOf_length_le _ _ h1.2
        rw [List.length_drop] at hh
        have h4 : ("www.".toList).length = 4 := rfl
        rw [h4] at hw
        refine ⟨by omega, ?_⟩
        simp only [List.length_cons]
        omega
      · split at h
        · rename_i h2
          have hk : 2 + host.length = k := Option.some_injective _ h
          have hh := isPrefixOf_length_le _ _ h2
          refine ⟨by omega, ?_⟩
          simp only [List.length_cons]
          omega
        · cases h
    · cases h

theorem step2_none_iff (host s : List Char) :
    step2MatchLen host s = none ↔
      (rmatchesAt (litToks ('/' :: '/' :: host)) s = false ∧
       rmatchesAt (litToks ('/' :: '/' :: ("www.".toList ++ host))) s = false) := by
  rw [rmatchesAt_litToks, rmatchesAt_litToks]
  match s with
  | [] => simp [step2MatchLen, List.isPrefixOf]
  | [a] => simp [step2MatchLen, List.isPrefixOf]
  | a :: b :: rest =>
    constructor
    · intro h
      simp only [step2MatchLen] at h
      split at h
      · rename_i hab
        simp only [Bool.and_eq_true, decide_eq_true_eq] at hab
        obtain ⟨rfl, rfl⟩ := hab
        split at h
        · cases h
        · rename_i h1
          split at h
          · cases h
          · rename_i h2
            constructor
            · by_contra hc
              rw [Bool.not_eq_false] at hc
              rw [pre2_iff] at hc
              exact h2 hc.2.2
            · by_contra hc
              rw [Bool.not_eq_false] at hc
              rw [pre2_iff] at hc
              have hc2 := hc.2.2
              rw [isPrefixOf_append_split] at hc2
              have h4 : ("www.".toList).length = 4 := rfl
              rw [h4] at hc2
              exact h1 hc2
      · rename_i hab
        simp only [Bool.and_eq_true, decide_eq_true_eq] at hab
        constructor
        · by_contra hc
          rw [Bool.not_eq_false] at hc
          rw [pre2_iff] at hc
          exact hab ⟨hc.1, hc.2.1⟩
        · by_contra hc
          rw [Bool.not_eq_false] at hc
          rw [pre2_iff] at hc
          exact hab ⟨hc.1, hc.2.1⟩
    · intro ⟨hA, hB⟩
      simp only [step2MatchLen]
      split
      · rename_i hab
        simp only [Bool.and_eq_true, decide_eq_true_eq] at hab
        obtain ⟨rfl, rfl⟩ := hab
        have hbh : ¬(host.isPrefixOf rest = true) := by
          intro hc
          rw [(pre2_iff host '/' '/' rest).mpr ⟨rfl, rfl, hc⟩] at hA
          cases hA
        have hbw : ¬((("www.".toList).isPrefixOf rest &&
            host.isPrefixOf (rest.drop 4)) = true) := by
          intro hc
          have hc2 : ("www.".toList ++ host).isPrefixOf rest = true := by
            rw [isPrefixOf_append_split]
            have h4 : ("www.".toList).length = 4 := rfl
            rw [h4]
            exact hc
          rw [(pre2_iff ("www.".toList ++ host) '/' '/' rest).mpr ⟨rfl, rfl, hc2⟩] at hB
          cases hB
        rw [if_neg hbw, if_neg hbh]
      · rfl

/-! Assembly: invariants of one `enhancedUrlReplace` pass over the
representative separated triple, and the idempotence theorem. -/

theorem enhanced_unfold (c : List Char) :
    enhancedUrlReplaceM c oSite pSite gPath =
      step3Scan pSite gPath (scanReplace (step2MatchLen (stripScheme oSite))
        ('/' :: '/' :: stripScheme pSite) (regexReplaceAll reO pSite c)) := by
  have hcomp : compileRegexM oSite = some reO := by decide
  rw [enhancedUrlReplaceM, hcomp]

theorem matchLen1_pos : ∀ (s : List Char) (k : Nat),
    (if rmatchesAt reO s then some reO.length else none) = some k → 1 ≤ k ∧ k ≤ s.length := by
  intro s k h
  split at h
  · rename_i hm
    have hk : reO.length = k := Option.some_injective _ h
    have hle := rmatchesAt_length_le reO s hm
    have h19 : reO.length = 19 := by decide
    omega
  · cases h

theorem matchLen1_none : ∀ (s : List Char),
    (if rmatchesAt reO s then some reO.length else none) = none → rmatchesAt reO s = false := by
  intro s h
  split at h
  · cases h
  · rename_i hm
    revert hm
    cases (rmatchesAt reO s) <;> simp

theorem step1_self_avoid (c : List Char) : noMatchAll reO (regexReplaceAll reO pSite c) := by
  rw [regexReplaceAll, regexReplaceF_eq_scan reO (by decide) pSite]
  exact scanReplaceF_self_avoid _ pSite reO (by decide) matchLen1_pos (by decide) (by decide)
    matchLen1_none c.length c (le_refl _)

theorem step2_preserve_reO (s : List Char) (hs : noMatchAll reO s) :
    noMatchAll reO (scanReplace (step2MatchLen (stripScheme oSite))
      ('/' :: '/' :: stripScheme pSite) s) :=
  scanReplaceF_preserve _ _ reO (by decide) (fun s2 k h => step2_pos _ s2 k h)
    (by decide) (by decide) s.length s hs

theorem step2_self_avoid_a (s : List Char) :
    noMatchAll pat2a (scanReplace (step2MatchLen (stripScheme oSite))
      ('/' :: '/' :: stripScheme pSite) s) :=
  scanReplaceF_self_avoid _ _ pat2a (by decide) (fun s2 k h => step2_pos _ s2 k h)
    (by decide) (by decide)
    (fun s2 h => ((step2_none_iff (stripScheme oSite) s2).mp h).1)
    s.length s (le_refl _)

theorem step2_self_avoid_b (s : List Char) :
    noMatchAll pat2b (scanReplace (step2MatchLen (stripScheme oSite))
      ('/' :: '/' :: stripScheme pSite) s) :=
  scanReplaceF_self_avoid _ _ pat2b (by decide) (fun s2 k h => step2_pos _ s2 k h)
    (by decide) (by decide)
    (fun s2 h => ((step2_none_iff (stripScheme oSite) s2).mp h).2)
    s.length s (le_refl _)

theorem step3_preserve_reO (s : List Char) (hs : noMatchAll reO s) :
    noMatchAll reO (step3Scan pSite gPath s) :=
  step3_preserve reO (by decide) hfix_reO henc_reO s.length s hs

theorem step3_preserve_a (s : List Char) (hs : noMatchAll pat2a s) :
    noMatchAll pat2a (step3Scan pSite gPath s) :=
  step3_preserve pat2a (by decide) hfix_pat2a henc_pat2a s.length s hs

theorem step3_preserve_b (s : List Char) (hs : noMatchAll pat2b s) :
    noMatchAll pat2b (step3Scan pSite gPath s) :=
  step3_preserve pat2b (by decide) hfix_pat2b henc_pat2b s.length s hs

theorem s3u_scan (s : List Char) :
    s3Unchanged pSite gPath (step3Scan pSite gPath s) = true :=
  s3U_of_scan s.length s (le_refl _) (step3Scan pSite gPath s).length

theorem enhanced_fixed (c1 : List Char)
    (h1 : noMatchAll reO c1) (h2a : noMatchAll pat2a c1) (h2b : noMatchAll pat2b c1)
    (hu : s3Unchanged pSite gPath c1 = true) :
    enhancedUrlReplaceM c1 oSite pSite gPath = c1 := by
  rw [enhanced_unfold]
  have i1 : regexReplaceAll reO pSite c1 = c1 := by
    rw [regexReplaceAll, regexReplaceF_eq_scan reO (by decide) pSite]
    refine scanReplaceF_id _ pSite c1.length c1 ?_
    intro t ht
    rw [h1 t ht]
    rfl
  rw [i1]
  have i2 : scanReplace (step2MatchLen (stripScheme oSite))
      ('/' :: '/' :: stripScheme pSite) c1 = c1 := by
    rw [scanReplace]
    refine scanReplaceF_id _ _ c1.length c1 ?_
    intro t ht
    exact (step2_none_iff (stripScheme oSite) t).mpr ⟨h2a t ht, h2b t ht⟩
  rw [i2]
  exact s3Unchanged_id c1.length c1 (le_refl _) hu

/-- C5: counterexample.  The claimed idempotence is false for every
triple: with upstream site https://example.com, proxy site
https://example.com.proxy.me and proxy path gp, rewriting the content
"https://example.com" a second time changes it again (the upstream site
compiled as a regex matches inside the already-rewritten proxy URL,
because the proxy host embeds the upstream host and the site's dot is a
wildcard), so enhancedUrlReplace is not idempotent as claimed. -/
theorem c5_rewrite_idempotence_counterexample :
    enhancedUrlReplaceM
        (enhancedUrlReplaceM ("https://example.com".toList) oSite
          ("https://example.com.proxy.me".toList) gPath)
        oSite ("https://example.com.proxy.me".toList) gPath ≠
      enhancedUrlReplaceM ("https://example.com".toList) oSite
        ("https://example.com.proxy.me".toList) gPath := by
  decide

/-- C5 (amended): for a separated triple — the upstream site
https://example.com, a proxy site https://proxy.local sharing no host
material with it, and proxy path gp — enhancedUrlReplace is idempotent
on every content: a second pass returns the first pass's output
byte-for-byte, and in particular URLs already pointing at the proxy or
already of the form proxySite/gp/&lt;base64&gt; are never encoded
again. -/
theorem c5_rewrite_idempotence_amended (content : List Char) :
    enhancedUrlReplaceM (enhancedUrlReplaceM content oSite pSite gPath) oSite pSite gPath =
      enhancedUrlReplaceM content oSite pSite gPath := by
  rw [enhanced_unfold content]
  apply enhanced_fixed
  · exact step3_preserve_reO _ (step2_preserve_reO _ (step1_self_avoid content))
  · exact step3_preserve_a _ (step2_self_avoid_a _)
  · exact step3_preserve_b _ (step2_self_avoid_b _)
  · exact s3u_scan _

end Gproxy
